import Mathlib

/-!
# Verification of the petals routing / block-placement core

A shallow embedding of the two source files

* `src/server/block_selection.py`  — block placement optimizer
* `src/client/sequence_manager.py` — route planner (span computation, RANDOM routing)

together with proofs settling the specification claims about them.

Modelling conventions:

* Python `float` throughput values are modelled as exact rationals (`ℚ`); the spec
  describes them as non-negative reals.  The single place where IEEE semantics
  matters (division by a zero minimum in `should_choose_other_blocks`) is modelled
  explicitly: a zero denominator makes the final `<` comparison false, exactly as
  `inf < c` / `nan < c` are false for numpy floats.
* Python dicts are modelled as insertion-ordered association lists
  (`List (PeerID × _)`); lookup is "first match", iteration is list order, and
  key-uniqueness (`NodupKeys`), which every real dict has, is an explicit
  hypothesis where a proof needs it.
* `np.random.shuffle` / `random.choice` are modelled by explicitly quantified
  choice oracles, and the unbounded `while moved:` loop by an explicit fuel
  parameter; theorems about terminating runs quantify over both.
* Fallible code returns `Except String _`, with the message recording which
  Python exception the modelled path raises.
-/

namespace Petals

/-! ## Data model (`src/data_structures.py` as used by the two files) -/

abbrev PeerID := Nat

inductive ServerState
  | joining
  | online
  | offline
deriving DecidableEq, Repr

structure ServerInfo where
  state : ServerState
  throughput : ℚ
deriving DecidableEq, Repr

structure ModuleInfo where
  uid : String
  servers : List (PeerID × ServerInfo)
deriving DecidableEq, Repr

/-- Python dict lookup (`d[k]` / `k in d`): first entry with the given key. -/
def lookupA {β : Type} (l : List (PeerID × β)) (p : PeerID) : Option β :=
  (l.find? (fun kv => decide (kv.1 = p))).map Prod.snd

/-- The keys of an association list are distinct — true of every Python dict. -/
def NodupKeys {β : Type} (l : List (PeerID × β)) : Prop := (l.map Prod.fst).Nodup

/-! ## `src/server/block_selection.py` -/

/-- `Span` of `block_selection.py` (`end` is a Lean keyword, renamed `stop`). -/
structure BsSpan where
  start : Nat
  stop : Nat
  throughput : ℚ
deriving DecidableEq, Repr

def BsSpan.length (s : BsSpan) : Nat := s.stop - s.start

/-- `Span.move_to`: `self.start, self.end = new_start, new_start + self.length`. -/
def BsSpan.move_to (s : BsSpan) (new_start : Nat) : BsSpan :=
  ⟨new_start, new_start + s.length, s.throughput⟩

/-- In-place mutation of the value stored under key `p` in a dict. -/
def updateSpan (spans : List (PeerID × BsSpan)) (p : PeerID) (s : BsSpan) :
    List (PeerID × BsSpan) :=
  spans.map (fun kv => if kv.1 = p then (kv.1, s) else kv)

/-- One `for peer_id, server in module.servers.items()` iteration of
`_compute_spans`: skip OFFLINE, open or widen the peer's span (note the source
sets `end = max(spans[peer_id].start, block + 1)` using the freshly updated
`start`), and accumulate the block's throughput. -/
def bsStepServer (block : Nat) (st : List (PeerID × BsSpan) × List ℚ)
    (kv : PeerID × ServerInfo) : List (PeerID × BsSpan) × List ℚ :=
  if kv.2.state = ServerState.offline then st
  else
    let spans :=
      match lookupA st.1 kv.1 with
      | some s =>
          let ns := min s.start block
          updateSpan st.1 kv.1 ⟨ns, max ns (block + 1), s.throughput⟩
      | none => st.1 ++ [(kv.1, ⟨block, block + 1, kv.2.throughput⟩)]
    (spans, st.2.set block (st.2.getD block 0 + kv.2.throughput))

/-- One `for block, module in enumerate(module_infos)` iteration. -/
def bsStepBlock (st : List (PeerID × BsSpan) × List ℚ) (block : Nat)
    (mo : Option ModuleInfo) : List (PeerID × BsSpan) × List ℚ :=
  match mo with
  | none => st
  | some info => info.servers.foldl (bsStepServer block) st

/-- The enumerate-fold of `_compute_spans`, with the block index made explicit. -/
def bsScan : Nat → List (Option ModuleInfo) → (List (PeerID × BsSpan) × List ℚ) →
    List (PeerID × BsSpan) × List ℚ
  | _, [], st => st
  | k, mo :: rest, st => bsScan (k + 1) rest (bsStepBlock st k mo)

/-- `_compute_spans` of `block_selection.py`: one bridged span per non-OFFLINE
peer plus the per-block aggregate throughput vector (initialised to
`np.zeros(len(module_infos))`). -/
def bs_compute_spans (module_infos : List (Option ModuleInfo)) :
    List (PeerID × BsSpan) × List ℚ :=
  bsScan 0 module_infos ([], List.replicate module_infos.length 0)

/-- `sorted(throughputs[i : i + num_blocks])` — ascending sort of one window. -/
def sortedWindow (ts : List ℚ) (num i : Nat) : List ℚ :=
  ((ts.drop i).take num).insertionSort (· ≤ ·)

/-- Python list `<` on rational lists: lexicographic, a strict prefix is smaller. -/
def pyListLt : List ℚ → List ℚ → Bool
  | _, [] => false
  | [], _ :: _ => true
  | a :: as, b :: bs => if a < b then true else if b < a then false else pyListLt as bs

/-- Python `i != cur_start` where `cur_start : Optional[int]` (`i != None` is true). -/
def tieFlag (i : Nat) : Option Nat → Bool
  | none => true
  | some c => decide (i ≠ c)

/-- Python `<` on the option tuples `(sorted_window, i != cur_start, i)`
(`False < True` on booleans). -/
def tripleLt (x y : List ℚ × Bool × Nat) : Bool :=
  if pyListLt x.1 y.1 then true
  else if pyListLt y.1 x.1 then false
  else if !x.2.1 && y.2.1 then true
  else if !y.2.1 && x.2.1 then false
  else decide (x.2.2 < y.2.2)

/-- `_choose_best_start`: `min` over the option tuples for every window start,
returning the start index.  `min` of an empty sequence raises `ValueError`
(when `num_blocks > len(throughputs)`), modelled as `none`. -/
def choose_best_start (throughputs : List ℚ) (num_blocks : Nat)
    (cur_start : Option Nat) : Option Nat :=
  if num_blocks > throughputs.length then none
  else
    match (List.range (throughputs.length - num_blocks + 1)).map
        (fun i => (sortedWindow throughputs num_blocks i, tieFlag i cur_start, i)) with
    | [] => none
    | o :: os => some (os.foldl (fun m x => if tripleLt x m then x else m) o).2.2

/-- `choose_best_blocks`: `list(range(start, start + num_blocks))`. -/
def choose_best_blocks (num_blocks : Nat) (module_infos : List (Option ModuleInfo)) :
    Option (List Nat) :=
  match choose_best_start (bs_compute_spans module_infos).2 num_blocks none with
  | none => none
  | some s => some (List.range' s num_blocks)

/-! ### `should_choose_other_blocks` -/

/-- `np.ndarray.min()` of a non-empty array (the empty case is guarded by the
callers below, mirroring the `ValueError` numpy raises). -/
def listMin : List ℚ → ℚ
  | [] => 0
  | x :: xs => xs.foldl min x

/-- `throughputs[a : b] += x` (numpy slice assignment; clips at the ends). -/
def addRange (ts : List ℚ) (a b : Nat) (x : ℚ) : List ℚ :=
  ts.enum.map (fun iv => if a ≤ iv.1 ∧ iv.1 < b then iv.2 + x else iv.2)

/-- `eps = 1e-6` of the source (taken exactly). -/
def scEps : ℚ := 1 / 1000000

/-- The final `balance_quality < min_balance_quality - eps` comparison.
`initial / nw` is a numpy float division: when `nw = 0` it yields `inf` (or
`nan` when `initial = 0` too) without raising, and either compares `False`
against any finite bound, so the function returns `False` in that case. -/
def balanceDecision (initial nw mbq : ℚ) : Bool :=
  if nw = 0 then false else decide (initial / nw < mbq - scEps)

/-- Steps of `should_choose_other_blocks` up to choosing the caller's best
start: compute spans and throughputs, take the (asserted-present) caller span,
subtract its contribution, and pick the best start for its length preferring
the current one on ties.  Returns the caller's span and its best start. -/
def sc_afterCaller (peer : PeerID) (infos : List (Option ModuleInfo)) :
    Except String (BsSpan × Nat) :=
  let st := bs_compute_spans infos
  if st.2.isEmpty then
    .error "ValueError: zero-size array to reduction operation minimum"
  else
    match lookupA st.1 peer with
    | none => .error "AssertionError: Span served by this server is not present in the DHT"
    | some lsp =>
      let ts1 := addRange st.2 lsp.start lsp.stop (-lsp.throughput)
      match choose_best_start ts1 lsp.length (some lsp.start) with
      | none => .error "ValueError: min() arg is an empty sequence"
      | some ns => .ok (lsp, ns)

/-- The body of one rebalancing pass (`for peer_id in servers:`): remove the
peer's contribution, recompute its best start preferring to stay, move if it
differs, re-add the contribution; `moved` records whether any peer moved. -/
def passPeers : List PeerID → List (PeerID × BsSpan) → List ℚ → Bool →
    Except String (List (PeerID × BsSpan) × List ℚ × Bool)
  | [], spans, ts, moved => .ok (spans, ts, moved)
  | p :: rest, spans, ts, moved =>
    match lookupA spans p with
    | none => .error "KeyError"
    | some sp =>
      let ts1 := addRange ts sp.start sp.stop (-sp.throughput)
      match choose_best_start ts1 sp.length (some sp.start) with
      | none => .error "ValueError: min() arg is an empty sequence"
      | some ns =>
        if sp.start ≠ ns then
          let sp2 := sp.move_to ns
          passPeers rest (updateSpan spans p sp2)
            (addRange ts1 sp2.start sp2.stop sp2.throughput) true
        else
          passPeers rest spans (addRange ts1 sp.start sp.stop sp.throughput) moved

/-- The `while moved:` fixed-point loop.  `oracle pass keys` models
`np.random.shuffle(servers)` (it is expected to permute `keys`); `fuel` bounds
the number of passes, since the source loop has no termination proof. -/
def balanceLoop (oracle : Nat → List PeerID → List PeerID) :
    Nat → Nat → List (PeerID × BsSpan) → List ℚ →
    Except String (List (PeerID × BsSpan) × List ℚ)
  | 0, _, _, _ => .error "fuel exhausted: rebalancing loop did not converge"
  | fuel + 1, pass, spans, ts =>
    match passPeers (oracle pass (spans.map Prod.fst)) spans ts false with
    | .error e => .error e
    | .ok (spans2, ts2, moved) =>
      if moved then balanceLoop oracle fuel (pass + 1) spans2 ts2
      else .ok (spans2, ts2)

/-- `should_choose_other_blocks` after the caller has moved: re-derive the
moved state (the caller's span moved to its best start, throughputs updated)
and run the rebalancing loop to its fixed point. -/
def sc_loopState (oracle : Nat → List PeerID → List PeerID) (fuel : Nat)
    (peer : PeerID) (infos : List (Option ModuleInfo)) :
    Except String (List (PeerID × BsSpan) × List ℚ) :=
  match sc_afterCaller peer infos with
  | .error e => .error e
  | .ok (lsp, ns) =>
    let st := bs_compute_spans infos
    let ts1 := addRange st.2 lsp.start lsp.stop (-lsp.throughput)
    let lsp2 := lsp.move_to ns
    let spans1 := updateSpan st.1 peer lsp2
    let ts2 := addRange ts1 lsp2.start lsp2.stop lsp2.throughput
    balanceLoop oracle fuel 0 spans1 ts2

/-- `should_choose_other_blocks`: debug override for `min_balance_quality > 1`,
early `False` when the caller already sits at its best start, otherwise run the
simulated rebalancing and compare the balance quality. -/
def should_choose_other_blocks (oracle : Nat → List PeerID → List PeerID)
    (fuel : Nat) (local_peer_id : PeerID) (module_infos : List (Option ModuleInfo))
    (min_balance_quality : ℚ) : Except String Bool :=
  if min_balance_quality > 1 then .ok true
  else
    match sc_afterCaller local_peer_id module_infos with
    | .error e => .error e
    | .ok (lsp, ns) =>
      if lsp.start = ns then .ok false
      else
        match sc_loopState oracle fuel local_peer_id module_infos with
        | .error e => .error e
        | .ok (_, tsF) =>
          .ok (balanceDecision (listMin (bs_compute_spans module_infos).2)
                (listMin tsF) min_balance_quality)

/-- Follows the spec's words (§4.3, steps 4–6), for comparison with the source
function: step 4 tentatively relocates the caller to its best start (re-adding
its contribution whether or not it moved), step 5 runs the greedy loop to
convergence, step 6 reports `balance_quality = initial / new` — with no early
`False` return when the caller is already best-placed. -/
def spec_balance_quality (oracle : Nat → List PeerID → List PeerID) (fuel : Nat)
    (peer : PeerID) (infos : List (Option ModuleInfo)) : Except String ℚ :=
  let st := bs_compute_spans infos
  if st.2.isEmpty then .error "empty snapshot"
  else
    let initial := listMin st.2
    match lookupA st.1 peer with
    | none => .error "SpanNotFound"
    | some lsp =>
      let ts1 := addRange st.2 lsp.start lsp.stop (-lsp.throughput)
      match choose_best_start ts1 lsp.length (some lsp.start) with
      | none => .error "ValueError"
      | some ns =>
        let lsp2 := lsp.move_to ns
        let spans1 := updateSpan st.1 peer lsp2
        let ts2 := addRange ts1 lsp2.start lsp2.stop lsp2.throughput
        match balanceLoop oracle fuel 0 spans1 ts2 with
        | .error e => .error e
        | .ok st2 => .ok (initial / listMin st2.2)

/-- The identity shuffle: a legitimate value of `np.random.shuffle`
(the identity permutation), used for concrete runs. -/
def idOracle : Nat → List PeerID → List PeerID := fun _ keys => keys

/-- A server record that is counted by `_compute_spans` (anything not OFFLINE,
including JOINING). -/
def nonOffline (kv : PeerID × ServerInfo) : Bool :=
  !decide (kv.2.state = ServerState.offline)

/-- Peer `p` has a non-OFFLINE entry in a server dict. -/
def appearsIn (servers : List (PeerID × ServerInfo)) (p : PeerID) : Bool :=
  servers.any (fun kv => decide (kv.1 = p) && nonOffline kv)

/-- Throughput of the first non-OFFLINE entry of peer `p` in a server dict. -/
def thrIn (servers : List (PeerID × ServerInfo)) (p : PeerID) : ℚ :=
  match servers.find? (fun kv => decide (kv.1 = p) && nonOffline kv) with
  | some kv => kv.2.throughput
  | none => 0

/-- Peer `p` appears non-OFFLINE on a block. -/
def appearsAt (mo : Option ModuleInfo) (p : PeerID) : Bool :=
  match mo with
  | none => false
  | some info => appearsIn info.servers p

/-- Throughput of peer `p`'s first non-OFFLINE entry on a block. -/
def thrAt (mo : Option ModuleInfo) (p : PeerID) : ℚ :=
  match mo with
  | none => 0
  | some info => thrIn info.servers p

/-- Aggregate throughput of all non-OFFLINE servers of a dict. -/
def serverSum (servers : List (PeerID × ServerInfo)) : ℚ :=
  (servers.filter nonOffline).foldl (fun a kv => a + kv.2.throughput) 0

/-- Aggregate non-OFFLINE throughput of one block. -/
def blockSum : Option ModuleInfo → ℚ
  | none => 0
  | some info => serverSum info.servers

/-- Reference description of the span `_compute_spans` assigns to peer `p`
(the claim's words): scan the blocks left to right; the first block where `p`
appears non-OFFLINE opens the span `[k, k+1)` with that block's throughput,
every later such block pushes `stop` to `k+1` keeping `start` and `throughput`,
and blocks where `p` is absent or OFFLINE change nothing (they are bridged). -/
def expectedSpanAux (p : PeerID) :
    List (Option ModuleInfo) → Nat → Option BsSpan → Option BsSpan
  | [], _, acc => acc
  | mo :: rest, k, acc =>
    expectedSpanAux p rest (k + 1)
      (if appearsAt mo p then
        match acc with
        | none => some ⟨k, k + 1, thrAt mo p⟩
        | some s => some ⟨s.start, k + 1, s.throughput⟩
      else acc)

/-- The single bridged span of peer `p`: from its first to its last
non-OFFLINE block, with the throughput recorded at the first one. -/
def expectedSpan (infos : List (Option ModuleInfo)) (p : PeerID) : Option BsSpan :=
  expectedSpanAux p infos 0 none

/-- The facts claim C10 asserts about the single span `_compute_spans` assigns
to a peer: it runs from the first to the last block on which the peer appears
non-OFFLINE (blocks in between are bridged into the span whatever their state),
and its throughput is the one recorded at the first such block. -/
def bridgedSpanFacts (infos : List (Option ModuleInfo)) (p : PeerID) (s : BsSpan) : Prop :=
  s.start < s.stop ∧ s.stop ≤ infos.length ∧
  (∀ i, i < s.start → appearsAt (infos.getD i none) p = false) ∧
  appearsAt (infos.getD s.start none) p = true ∧
  appearsAt (infos.getD (s.stop - 1) none) p = true ∧
  (∀ i, s.stop ≤ i → i < infos.length → appearsAt (infos.getD i none) p = false) ∧
  s.throughput = thrAt (infos.getD s.start none) p

/-! ### Concrete snapshots used in counterexamples and witnesses -/

/-- Two blocks; peer 0 spans both (throughput 1), peers 1 and 2 sit on
block 0 with throughput 5 each.  Aggregates: `[11, 1]`. -/
def exInfosA : List (Option ModuleInfo) :=
  [some ⟨"b0", [(0, ⟨ServerState.online, 1⟩), (1, ⟨ServerState.online, 5⟩),
    (2, ⟨ServerState.online, 5⟩)]⟩,
   some ⟨"b1", [(0, ⟨ServerState.online, 1⟩)]⟩]

/-- Three blocks; peers 0 (throughput 1) and 1 (throughput 5) on block 0,
blocks 1 and 2 served by nobody.  Aggregates: `[6, 0, 0]`. -/
def exInfosB : List (Option ModuleInfo) :=
  [some ⟨"b0", [(0, ⟨ServerState.online, 1⟩), (1, ⟨ServerState.online, 5⟩)]⟩, none, none]

/-- Two blocks; peers 0 (throughput 1) and 1 (throughput 5) on block 0,
block 1 served by nobody.  Aggregates: `[6, 0]`. -/
def exInfosC : List (Option ModuleInfo) :=
  [some ⟨"b0", [(0, ⟨ServerState.online, 1⟩), (1, ⟨ServerState.online, 5⟩)]⟩, none]

/-- One block with a single JOINING server of throughput 5. -/
def exInfosD : List (Option ModuleInfo) :=
  [some ⟨"b", [(7, ⟨ServerState.joining, 5⟩)]⟩]

/-- Peer 3 is ONLINE on block 0 (throughput 2), absent on block 1 and JOINING
on block 2 — the placement optimizer bridges this into one span `[0, 3)`. -/
def exInfos10 : List (Option ModuleInfo) :=
  [some ⟨"b0", [(3, ⟨ServerState.online, 2⟩)]⟩, none,
   some ⟨"b2", [(3, ⟨ServerState.joining, 7⟩)]⟩]

/-! ## `src/client/sequence_manager.py` -/

/-- `RemoteSpanInfo` (`end` is a Lean keyword, renamed `stop`). -/
structure RemoteSpanInfo where
  start : Nat
  stop : Nat
  peer_id : PeerID
deriving DecidableEq, Repr

/-- `peer_id in info.servers and info.servers[peer_id].state == ONLINE`. -/
def onlineInServers (servers : List (PeerID × ServerInfo)) (p : PeerID) : Bool :=
  match lookupA servers p with
  | some s => decide (s.state = ServerState.online)
  | none => false

/-- Peer `p` serves block `i` in state ONLINE (out-of-range blocks count as
not ONLINE, so a span boundary at the edge of the block range and a non-ONLINE
neighbour are treated uniformly). -/
def isOnlineAt (infos : List ModuleInfo) (p : PeerID) (i : Nat) : Bool :=
  match infos[i]? with
  | some info => onlineInServers info.servers p
  | none => false

/-- The open/extend step of `compute_spans`: a peer not yet in `active_spans`
opens `RemoteSpanInfo(start=i, end=i+1, peer_id=p)`; an already-open span has
its `end` pushed to `i + 1` (in-place in the insertion-ordered dict). -/
def openOrExtend (active : List (PeerID × RemoteSpanInfo)) (p : PeerID) (i : Nat) :
    List (PeerID × RemoteSpanInfo) :=
  match lookupA active p with
  | some _ =>
      active.map (fun kv => if kv.1 = p then (kv.1, ⟨kv.2.start, i + 1, kv.2.peer_id⟩) else kv)
  | none => active ++ [(p, ⟨i, i + 1, p⟩)]

/-- `for peer_id, server in info.servers.items(): if state != ONLINE: continue; ...` -/
def smStepServers (i : Nat) (servers : List (PeerID × ServerInfo))
    (active : List (PeerID × RemoteSpanInfo)) : List (PeerID × RemoteSpanInfo) :=
  servers.foldl
    (fun a kv => if kv.2.state = ServerState.online then openOrExtend a kv.1 i else a)
    active

/-- The close condition of `compute_spans`: `peer_id not in info.servers or
info.servers[peer_id].state != ONLINE or block_index == len(block_infos) - 1`. -/
def closeCond (servers : List (PeerID × ServerInfo)) (isLast : Bool) (p : PeerID) : Bool :=
  (match lookupA servers p with
   | none => true
   | some s => decide (s.state ≠ ServerState.online)) || isLast

/-- One block of the `compute_spans` scan: extend/open spans of ONLINE
servers, then move every active span meeting the close condition to the closed
list, in dict order. -/
def smStepBlock (n : Nat) (st : List RemoteSpanInfo × List (PeerID × RemoteSpanInfo))
    (i : Nat) (info : ModuleInfo) :
    List RemoteSpanInfo × List (PeerID × RemoteSpanInfo) :=
  let act := smStepServers i info.servers st.2
  (st.1 ++ (act.filter (fun kv => closeCond info.servers (decide (i = n - 1)) kv.1)).map Prod.snd,
   act.filter (fun kv => !closeCond info.servers (decide (i = n - 1)) kv.1))

/-- The enumerate-scan of `compute_spans`, block index made explicit. -/
def smScan (n : Nat) : Nat → List ModuleInfo →
    (List RemoteSpanInfo × List (PeerID × RemoteSpanInfo)) →
    List RemoteSpanInfo × List (PeerID × RemoteSpanInfo)
  | _, [], st => st
  | k, info :: rest, st => smScan n (k + 1) rest (smStepBlock n st k info)

/-- `RemoteSequenceManager.compute_spans`: the closed spans sorted by length
descending (`closed_spans.sort(key=..., reverse=True)`, a stable sort), and
`spans_containing_block[i]` listing, in that order, the spans whose range
contains `i`.  The source asserts `not active_spans` after the scan; lemma
`smScan_active_empty` below proves the assertion always holds. -/
def compute_spans (block_infos : List ModuleInfo) :
    List RemoteSpanInfo × List (List RemoteSpanInfo) :=
  let scan := smScan block_infos.length 0 block_infos ([], [])
  let sorted := scan.1.insertionSort
    (fun s1 s2 => s2.stop - s2.start ≤ s1.stop - s1.start)
  (sorted,
   (List.range block_infos.length).map
     (fun i => sorted.filter (fun s => decide (s.start ≤ i) && decide (i < s.stop))))

/-- The RANDOM branch of `make_sequence`: walk forward from `current_index`;
at each step pick one of the spans covering the index (`random.choice`,
modelled by the `choice` oracle taken modulo the candidate count; a default is
supplied to `getD` but an in-bounds index never reaches it), check the
source's assertion (`chosen_span.start <= current_index < chosen_span.end`),
append and jump to `chosen_span.end`.  `random.choice` of an empty list and an
out-of-range index raise `IndexError`.  The loop variable is fuel: the source
loop terminates whenever it does not raise, and the theorems show
`end_index - start_index` fuel always suffices. -/
def makeSequenceRandom (sbc : List (List RemoteSpanInfo)) (choice : Nat → Nat)
    (end_index : Nat) : Nat → Nat → Except String (List RemoteSpanInfo)
  | fuel, current_index =>
    if current_index < end_index then
      match fuel with
      | 0 => .error "fuel exhausted"
      | fuel + 1 =>
        match sbc[current_index]? with
        | none => .error "IndexError: tuple index out of range"
        | some candidate_spans =>
          if candidate_spans.isEmpty then
            .error "IndexError: cannot choose from an empty sequence"
          else
            let chosen_span :=
              candidate_spans.getD (choice fuel % candidate_spans.length) ⟨0, 0, 0⟩
            if chosen_span.start ≤ current_index ∧ current_index < chosen_span.stop then
              match makeSequenceRandom sbc choice end_index fuel chosen_span.stop with
              | .ok seq => .ok (chosen_span :: seq)
              | .error e => .error e
            else .error "AssertionError"
    else .ok []

/-- The route shape claim C2 asserts: each chosen span covers the current
frontier, never starts past it, the frontier jumps to its `stop`, and the walk
stops exactly when the frontier reaches `end_index`. -/
def chainFrom : List RemoteSpanInfo → Nat → Nat → Prop
  | [], current, end_index => end_index ≤ current
  | sp :: rest, current, end_index =>
      current < end_index ∧ sp.start ≤ current ∧ current < sp.stop ∧
        chainFrom rest sp.stop end_index

/-- A run of consecutive ONLINE blocks of a peer that is closed on the left:
it starts at 0 or just after a non-ONLINE block. -/
def leftMaxRun (infos : List ModuleInfo) (p : PeerID) (a b : Nat) : Prop :=
  a < b ∧ (∀ i, a ≤ i → i < b → isOnlineAt infos p i = true) ∧
  (a = 0 ∨ isOnlineAt infos p (a - 1) = false)

/-- A maximal ONLINE run: closed on both sides (recall that blocks past the
end of the range count as not ONLINE, covering the swarm boundary). -/
def maxOnlineRun (infos : List ModuleInfo) (p : PeerID) (a b : Nat) : Prop :=
  leftMaxRun infos p a b ∧ isOnlineAt infos p b = false

/-- Two spans of the same peer neither overlap nor touch. -/
def spanSep (s1 s2 : RemoteSpanInfo) : Prop :=
  s1.peer_id = s2.peer_id → (s1.stop < s2.start ∨ s2.stop < s1.start)

/-- Scan invariant of `compute_spans` after processing blocks `[0, k)` and
before processing block `k`: the active dict holds, per ONLINE-at-`k-1` peer,
its still-open left-closed run ending at `k`; the closed list holds exactly
the maximal runs that ended strictly before `k`, appended in closing order
(so same-peer spans appear left to right); and closed spans of a peer lie
strictly left of its active span. -/
def smInv (infos : List ModuleInfo) (k : Nat) (closed : List RemoteSpanInfo)
    (active : List (PeerID × RemoteSpanInfo)) : Prop :=
  (∀ kv ∈ active, kv.2.peer_id = kv.1 ∧ kv.2.stop = k ∧
    leftMaxRun infos kv.1 kv.2.start k) ∧
  NodupKeys active ∧
  (∀ p, 0 < k → isOnlineAt infos p (k - 1) = true → p ∈ active.map Prod.fst) ∧
  (∀ s : RemoteSpanInfo, s ∈ closed ↔
    (maxOnlineRun infos s.peer_id s.start s.stop ∧ s.stop < k)) ∧
  List.Pairwise
    (fun s1 s2 : RemoteSpanInfo => s1.peer_id = s2.peer_id → s1.stop < s2.start) closed ∧
  (∀ s ∈ closed, ∀ kv ∈ active, s.peer_id = kv.1 → s.stop < kv.2.start)

/-- The manager state derived from one refresh. -/
structure ManagerState where
  block_infos : List ModuleInfo
  spans_by_priority : List RemoteSpanInfo
  spans_containing_block : List (List RemoteSpanInfo)
deriving Repr

/-- `update_block_infos_` applied to the infos fetched from the DHT: for each
block it warns about a `None` entry and then evaluates `info.servers`, which
raises `AttributeError` on `None` — so the refresh fails at the first missing
entry and otherwise stores the fetched infos unchanged. -/
def update_block_infos : List (Option ModuleInfo) → Except String (List ModuleInfo)
  | [] => .ok []
  | none :: _ => .error "AttributeError: NoneType object has no attribute servers"
  | some info :: rest => (update_block_infos rest).map (info :: ·)

/-- Modelled from the spec: the thread `run` loop that performs the blocking
first refresh is absent from src/ (the class overrides no `run` method and
nothing under src/ sets `self.ready`), so the construction sequence — first
refresh completes, then `__init__` resumes — is taken from the spec (§3.2
lifecycle).  The refresh body (`update_block_infos_`, `compute_spans`) and the
assertions at the end of `__init__` (`assert info is not None` for every
block, vacuous once the refresh succeeded, then
`assert self.spans_by_priority and self.spans_containing_block`, Python
truthiness of a list and a tuple) are from the source. -/
def constructManager (fetched : List (Option ModuleInfo)) : Except String ManagerState :=
  match update_block_infos fetched with
  | .error e => .error e
  | .ok infos =>
    if (compute_spans infos).1 = [] then
      .error "AssertionError: spans_by_priority is empty"
    else if infos.length = 0 then
      .error "AssertionError: spans_containing_block is empty"
    else .ok ⟨infos, (compute_spans infos).1, (compute_spans infos).2⟩

/-- Observable actions of the manager's background loop on the readiness event. -/
inductive ManagerAction
  | refresh
  | setReady
  | clearReady
deriving DecidableEq, Repr

/-- Modelled from the spec: the background `run` loop itself is absent from
src/; per §5 of the spec it refreshes each cycle and the readiness event is a
one-shot signal set upon completion of the first refresh and never cleared.
`specRunTrace n` lists the actions of the first `n` loop iterations. -/
def specRunTrace : Nat → List ManagerAction
  | 0 => []
  | n + 1 =>
    specRunTrace n ++
      ([ManagerAction.refresh] ++ if n = 0 then [ManagerAction.setReady] else [])

/-- The spec's worked example: four blocks, peer 0 ONLINE on blocks 0–1 and
peer 1 ONLINE on blocks 2–3. -/
def smExample : List ModuleInfo :=
  [⟨"block.0", [(0, ⟨ServerState.online, 1⟩)]⟩,
   ⟨"block.1", [(0, ⟨ServerState.online, 1⟩)]⟩,
   ⟨"block.2", [(1, ⟨ServerState.online, 1⟩)]⟩,
   ⟨"block.3", [(1, ⟨ServerState.online, 1⟩)]⟩]

/-- One block whose only server is OFFLINE: no block is covered by any span. -/
def exInfos8 : List ModuleInfo := [⟨"block.0", [(0, ⟨ServerState.offline, 1⟩)]⟩]

/-- Fetched infos where every block has an entry but block 1's only server is
OFFLINE: zero ONLINE servers on block 1. -/
def fetched3 : List (Option ModuleInfo) :=
  [some ⟨"block.0", [(0, ⟨ServerState.online, 1⟩)]⟩,
   some ⟨"block.1", [(1, ⟨ServerState.offline, 1⟩)]⟩]

/-! ## Order lemmas for the Python tuple comparison -/

theorem pyListLt_irrefl : ∀ l, pyListLt l l = false := by
  intro l
  induction l with
  | nil => rfl
  | cons x xs ih => simp [pyListLt, ih]

theorem pyListLt_conn : ∀ a b, pyListLt a b = false → pyListLt b a = false → a = b := by
  intro a
  induction a with
  | nil =>
    intro b h1 _
    cases b with
    | nil => rfl
    | cons y ys => simp [pyListLt] at h1
  | cons x xs ih =>
    intro b h1 h2
    cases b with
    | nil => simp [pyListLt] at h2
    | cons y ys =>
      by_cases hxy : x < y
      · simp [pyListLt, hxy] at h1
      · by_cases hyx : y < x
        · simp [pyListLt, hyx] at h2
        · have hx : x = y := le_antisymm (not_lt.1 hyx) (not_lt.1 hxy)
          simp only [pyListLt, if_neg hxy, if_neg hyx] at h1
          simp only [pyListLt, if_neg hyx, if_neg hxy] at h2
          rw [hx, ih ys h1 h2]

theorem pyListLt_trans :
    ∀ a b c, pyListLt a b = true → pyListLt b c = true → pyListLt a c = true := by
  intro a
  induction a with
  | nil =>
    intro b c h1 h2
    cases b with
    | nil => simp [pyListLt] at h1
    | cons y ys =>
      cases c with
      | nil => simp [pyListLt] at h2
      | cons z zs => simp [pyListLt]
  | cons x xs ih =>
    intro b c h1 h2
    cases b with
    | nil => simp [pyListLt] at h1
    | cons y ys =>
      cases c with
      | nil => simp [pyListLt] at h2
      | cons z zs =>
        by_cases hxy : x < y
        · by_cases hyz : y < z
          · simp [pyListLt, lt_trans hxy hyz]
          · by_cases hzy : z < y
            · simp [pyListLt, hyz, hzy] at h2
            · have : y = z := le_antisymm (not_lt.1 hzy) (not_lt.1 hyz)
              subst this
              simp [pyListLt, hxy]
        · by_cases hyx : y < x
          · simp [pyListLt, hxy, hyx] at h1
          · have hxey : x = y := le_antisymm (not_lt.1 hyx) (not_lt.1 hxy)
            subst hxey
            simp only [pyListLt, if_neg hxy, if_neg hyx] at h1
            by_cases hyz : x < z
            · simp [pyListLt, hyz]
            · by_cases hzy : z < x
              · simp [pyListLt, hyz, hzy] at h2
              · simp only [pyListLt, if_neg hyz, if_neg hzy] at h2 ⊢
                exact ih ys zs h1 h2

theorem pyListLt_asymm (a b : List ℚ) (h : pyListLt a b = true) : pyListLt b a = false := by
  by_contra hc
  have hba : pyListLt b a = true := by
    cases hh : pyListLt b a
    · exact absurd hh hc
    · rfl
  have := pyListLt_trans a b a h hba
  rw [pyListLt_irrefl] at this
  exact Bool.false_ne_true this

/-- Characterisation of the tuple comparison as a lexicographic order. -/
theorem tripleLt_iff (x y : List ℚ × Bool × Nat) :
    tripleLt x y = true ↔
      pyListLt x.1 y.1 = true ∨
        (x.1 = y.1 ∧ ((x.2.1 = false ∧ y.2.1 = true) ∨
          (x.2.1 = y.2.1 ∧ x.2.2 < y.2.2))) := by
  unfold tripleLt
  by_cases h1 : pyListLt x.1 y.1 = true
  · simp [h1]
  · have h1f : pyListLt x.1 y.1 = false := by
      cases hh : pyListLt x.1 y.1
      · rfl
      · exact absurd hh h1
    by_cases h2 : pyListLt y.1 x.1 = true
    · have hne : ¬ x.1 = y.1 := by
        intro he
        rw [he, pyListLt_irrefl] at h2
        exact Bool.false_ne_true h2
      simp [h1f, h2, hne]
    · have h2f : pyListLt y.1 x.1 = false := by
        cases hh : pyListLt y.1 x.1
        · rfl
        · exact absurd hh h2
      have heq : x.1 = y.1 := pyListLt_conn _ _ h1f h2f
      simp only [h1f, h2f, Bool.false_eq_true, if_false, heq, true_and,
        pyListLt_irrefl]
      cases hx2 : x.2.1 <;> cases hy2 : y.2.1 <;>
        simp [decide_eq_true_iff, pyListLt_irrefl]

theorem tripleLt_irrefl (x : List ℚ × Bool × Nat) : tripleLt x x = false := by
  cases hh : tripleLt x x
  · rfl
  · exfalso
    rcases (tripleLt_iff x x).1 hh with h | ⟨_, h | h⟩
    · rw [pyListLt_irrefl] at h; exact Bool.false_ne_true h
    · exact Bool.false_ne_true (h.1.symm.trans h.2)
    · exact lt_irrefl _ h.2

theorem tripleLt_trans (x y z : List ℚ × Bool × Nat)
    (h1 : tripleLt x y = true) (h2 : tripleLt y z = true) : tripleLt x z = true := by
  rw [tripleLt_iff] at h1 h2 ⊢
  rcases h1 with h1 | ⟨e1, h1⟩
  · rcases h2 with h2 | ⟨e2, _⟩
    · exact Or.inl (pyListLt_trans _ _ _ h1 h2)
    · rw [e2] at h1; exact Or.inl h1
  · rcases h2 with h2 | ⟨e2, h2⟩
    · rw [e1]; exact Or.inl h2
    · refine Or.inr ⟨e1.trans e2, ?_⟩
      rcases h1 with h1 | h1
      · rcases h2 with h2 | h2
        · rw [h1.2] at h2; exact absurd h2.1 (by simp)
        · exact Or.inl ⟨h1.1, h2.1 ▸ h1.2⟩
      · rcases h2 with h2 | h2
        · exact Or.inl ⟨h1.1.trans h2.1, h2.2⟩
        · exact Or.inr ⟨h1.1.trans h2.1, lt_trans h1.2 h2.2⟩

theorem tripleLt_conn (x y : List ℚ × Bool × Nat)
    (h1 : tripleLt x y = false) (h2 : tripleLt y x = false) : x = y := by
  have n1 : ¬ tripleLt x y = true := by rw [h1]; simp
  have n2 : ¬ tripleLt y x = true := by rw [h2]; simp
  rw [tripleLt_iff] at n1 n2
  have hl1 : pyListLt x.1 y.1 = false := by
    cases hh : pyListLt x.1 y.1
    · rfl
    · exact absurd (Or.inl hh) n1
  have hl2 : pyListLt y.1 x.1 = false := by
    cases hh : pyListLt y.1 x.1
    · rfl
    · exact absurd (Or.inl hh) n2
  have he1 : x.1 = y.1 := pyListLt_conn _ _ hl1 hl2
  have heb : x.2.1 = y.2.1 := by
    cases hx : x.2.1 <;> cases hy : y.2.1
    · rfl
    · exact absurd (Or.inr ⟨he1, Or.inl ⟨hx, hy⟩⟩) n1
    · exact absurd (Or.inr ⟨he1.symm, Or.inl ⟨hy, hx⟩⟩) n2
    · rfl
  have hn1 : ¬ x.2.2 < y.2.2 := fun hlt =>
    n1 (Or.inr ⟨he1, Or.inr ⟨heb, hlt⟩⟩)
  have hn2 : ¬ y.2.2 < x.2.2 := fun hlt =>
    n2 (Or.inr ⟨he1.symm, Or.inr ⟨heb.symm, hlt⟩⟩)
  have hen : x.2.2 = y.2.2 := le_antisymm (not_lt.1 hn2) (not_lt.1 hn1)
  have : x.2 = y.2 := Prod.ext heb hen
  exact Prod.ext he1 this

theorem tripleLt_asymm (x y : List ℚ × Bool × Nat) (h : tripleLt x y = true) :
    tripleLt y x = false := by
  cases hh : tripleLt y x
  · rfl
  · have := tripleLt_trans x y x h hh
    rw [tripleLt_irrefl] at this
    exact absurd this (by simp)

/-- The `min` fold of `_choose_best_start` returns an element of the candidate
list (or the seed) that no candidate compares strictly below. -/
theorem foldlMin_spec :
    ∀ (os : List (List ℚ × Bool × Nat)) (m : List ℚ × Bool × Nat),
      ((os.foldl (fun acc x => if tripleLt x acc then x else acc) m) = m ∨
        (os.foldl (fun acc x => if tripleLt x acc then x else acc) m) ∈ os) ∧
      ∀ x, (x = m ∨ x ∈ os) →
        tripleLt x (os.foldl (fun acc x => if tripleLt x acc then x else acc) m) = false := by
  intro os
  induction os with
  | nil =>
    intro m
    refine ⟨Or.inl rfl, ?_⟩
    intro x hx
    rcases hx with rfl | hx
    · exact tripleLt_irrefl x
    · exact absurd hx (List.not_mem_nil x)
  | cons o os ih =>
    intro m
    rw [List.foldl_cons]
    obtain ⟨hmem, hmin⟩ := ih (if tripleLt o m then o else m)
    constructor
    · rcases hmem with h | h
      · rw [h]
        by_cases hc : tripleLt o m = true
        · rw [if_pos hc]; exact Or.inr (List.mem_cons_self o os)
        · rw [if_neg hc]; exact Or.inl rfl
      · exact Or.inr (List.mem_cons_of_mem o h)
    · intro x hx
      have hm2r : tripleLt (if tripleLt o m then o else m)
          (os.foldl (fun acc x => if tripleLt x acc then x else acc)
            (if tripleLt o m then o else m)) = false :=
        hmin _ (Or.inl rfl)
      have discarded : ∀ d, tripleLt d (if tripleLt o m then o else m) = false →
          tripleLt d (os.foldl (fun acc x => if tripleLt x acc then x else acc)
            (if tripleLt o m then o else m)) = false := by
        intro d hd
        cases hdr : tripleLt d (os.foldl (fun acc x => if tripleLt x acc then x else acc)
            (if tripleLt o m then o else m))
        · rfl
        · exfalso
          cases hmr : tripleLt (os.foldl (fun acc x => if tripleLt x acc then x else acc)
              (if tripleLt o m then o else m)) (if tripleLt o m then o else m)
          · have heq := tripleLt_conn _ _ hmr hm2r
            rw [heq, hd] at hdr
            exact Bool.false_ne_true hdr
          · have := tripleLt_trans _ _ _ hdr hmr
            rw [hd] at this
            exact Bool.false_ne_true this
      rcases hx with rfl | hx
      · -- x = m : either m survived the first comparison, or o displaced it
        by_cases hc : tripleLt o x = true
        · refine discarded x ?_
          rw [if_pos hc]
          exact tripleLt_asymm o x hc
        · have hcf : (if tripleLt o x then o else x) = x := by
            cases hh : tripleLt o x
            · rw [if_neg (by simp [hh])]
            · exact absurd hh hc
          have := hmin _ (Or.inl rfl)
          rw [hcf] at this ⊢
          exact this
      · rcases List.mem_cons.1 hx with rfl | hx
        · by_cases hc : tripleLt x m = true
          · have hcf : (if tripleLt x m then x else m) = x := by rw [if_pos hc]
            have := hmin _ (Or.inl rfl)
            rw [hcf] at this ⊢
            exact this
          · refine discarded x ?_
            cases hh : tripleLt x m
            · rw [if_neg (by simp [hh])]; exact hh
            · exact absurd hh hc
        · exact hmin x (Or.inr hx)

/-- `_choose_best_start` with `num_blocks ≤ len(throughputs)` returns a valid
window start whose sorted window no other window's sorted window lexicographically
undercuts. -/
theorem choose_best_start_spec (ts : List ℚ) (num : Nat) (cur : Option Nat)
    (h : num ≤ ts.length) :
    ∃ s, choose_best_start ts num cur = some s ∧ s + num ≤ ts.length ∧
      ∀ j, j + num ≤ ts.length →
        pyListLt (sortedWindow ts num j) (sortedWindow ts num s) = false := by
  unfold choose_best_start
  rw [if_neg (not_lt.2 h)]
  set keyFn := fun i => (sortedWindow ts num i, tieFlag i cur, i) with hkey
  have hlen : 0 < ts.length - num + 1 := Nat.succ_le_succ (Nat.zero_le _)
  obtain ⟨i0, rest, hrange⟩ : ∃ i0 rest, List.range (ts.length - num + 1) = i0 :: rest := by
    cases hr : List.range (ts.length - num + 1) with
    | nil =>
      exfalso
      have := List.length_range (ts.length - num + 1)
      rw [hr] at this
      simp at this
    | cons a l => exact ⟨a, l, rfl⟩
  rw [hrange]
  simp only [List.map_cons]
  obtain ⟨hmem, hmin⟩ := foldlMin_spec (rest.map keyFn) (keyFn i0)
  set r := (rest.map keyFn).foldl (fun acc x => if tripleLt x acc then x else acc) (keyFn i0)
    with hrdef
  have hrform : ∃ s, s ∈ List.range (ts.length - num + 1) ∧ r = keyFn s := by
    rcases hmem with hh | hh
    · exact ⟨i0, by rw [hrange]; exact List.mem_cons_self i0 rest, hh⟩
    · obtain ⟨s, hs, hseq⟩ := List.mem_map.1 hh
      exact ⟨s, by rw [hrange]; exact List.mem_cons_of_mem i0 hs, hseq.symm⟩
  obtain ⟨s, hsmem, hseq⟩ := hrform
  have hsrange : s < ts.length - num + 1 := List.mem_range.1 hsmem
  refine ⟨s, ?_, by omega, ?_⟩
  · rw [hseq]
  · intro j hj
    have hjmem : j ∈ List.range (ts.length - num + 1) := List.mem_range.2 (by omega)
    have hkj : (keyFn j = keyFn i0) ∨ keyFn j ∈ rest.map keyFn := by
      rw [hrange] at hjmem
      rcases List.mem_cons.1 hjmem with rfl | hjr
      · exact Or.inl rfl
      · exact Or.inr (List.mem_map_of_mem keyFn hjr)
    have := hmin (keyFn j) hkj
    cases htl : tripleLt (keyFn j) r
    · -- extract the first component: the whole tuple does not sort below
      cases hpl : pyListLt (sortedWindow ts num j) (sortedWindow ts num s)
      · rfl
      · exfalso
        have : tripleLt (keyFn j) r = true := by
          rw [hseq, tripleLt_iff]
          exact Or.inl hpl
        rw [htl] at this
        exact Bool.false_ne_true this
    · rw [this] at htl; exact absurd htl (by simp)

/-! ## Association-list (dict) lemmas -/

theorem lookupA_cons {β : Type} (q : PeerID) (v : β) (l : List (PeerID × β)) (p : PeerID) :
    lookupA ((q, v) :: l) p = if q = p then some v else lookupA l p := by
  unfold lookupA
  rw [List.find?_cons]
  by_cases h : q = p
  · simp [h]
  · simp [h]

theorem lookupA_append {β : Type} (l1 l2 : List (PeerID × β)) (p : PeerID) :
    lookupA (l1 ++ l2) p = (lookupA l1 p).or (lookupA l2 p) := by
  unfold lookupA
  rw [List.find?_append]
  cases List.find? (fun kv => decide (kv.1 = p)) l1 <;> rfl

theorem lookupA_eq_none {β : Type} (l : List (PeerID × β)) (p : PeerID) :
    lookupA l p = none ↔ p ∉ l.map Prod.fst := by
  induction l with
  | nil => simp [lookupA]
  | cons kv tl ih =>
    obtain ⟨q, v⟩ := kv
    rw [lookupA_cons]
    by_cases h : q = p
    · simp [h]
    · simp [h, ih, Ne.symm h]

theorem mem_of_lookupA {β : Type} {l : List (PeerID × β)} {p : PeerID} {v : β}
    (h : lookupA l p = some v) : (p, v) ∈ l := by
  induction l with
  | nil => simp [lookupA] at h
  | cons kv tl ih =>
    obtain ⟨q, w⟩ := kv
    rw [lookupA_cons] at h
    by_cases hq : q = p
    · rw [if_pos hq] at h
      subst hq
      exact List.mem_cons.2 (Or.inl (by rw [Option.some_inj.1 h]))
    · rw [if_neg hq] at h
      exact List.mem_cons.2 (Or.inr (ih h))

theorem lookupA_of_mem {β : Type} {l : List (PeerID × β)} {p : PeerID} {v : β}
    (hnd : NodupKeys l) (hm : (p, v) ∈ l) : lookupA l p = some v := by
  induction l with
  | nil => exact absurd hm (List.not_mem_nil _)
  | cons kv tl ih =>
    obtain ⟨q, w⟩ := kv
    rw [lookupA_cons]
    rcases List.mem_cons.1 hm with heq | hmem
    · obtain ⟨h1, h2⟩ := Prod.mk.injEq .. ▸ heq.symm
      rw [if_pos h1, h2]
    · have hq : q ≠ p := by
        intro hc
        subst hc
        have : q ∈ tl.map Prod.fst := List.mem_map.2 ⟨(q, v), hmem, rfl⟩
        exact (List.nodup_cons.1 hnd).1 this
      rw [if_neg hq]
      exact ih (List.nodup_cons.1 hnd).2 hmem

theorem updateSpan_keys (l : List (PeerID × BsSpan)) (q : PeerID) (s : BsSpan) :
    (updateSpan l q s).map Prod.fst = l.map Prod.fst := by
  induction l with
  | nil => rfl
  | cons kv tl ih =>
    unfold updateSpan at ih ⊢
    by_cases h : kv.1 = q <;> simp [h, ih]

theorem lookupA_updateSpan (l : List (PeerID × BsSpan)) (q : PeerID) (s : BsSpan)
    (p : PeerID) :
    lookupA (updateSpan l q s) p =
      if q = p then (lookupA l p).map (fun _ => s) else lookupA l p := by
  induction l with
  | nil => by_cases h : q = p <;> simp [updateSpan, lookupA, h]
  | cons kv tl ih =>
    obtain ⟨a, w⟩ := kv
    show lookupA ((if a = q then (a, s) else (a, w)) :: updateSpan tl q s) p = _
    by_cases haq : a = q
    · rw [if_pos haq, lookupA_cons, lookupA_cons]
      by_cases hap : a = p
      · rw [if_pos hap, if_pos (haq ▸ hap), if_pos hap]
        rfl
      · rw [if_neg hap, if_neg hap, ih]
    · rw [if_neg haq, lookupA_cons, lookupA_cons]
      by_cases hap : a = p
      · rw [if_pos hap, if_pos hap, if_neg (fun hc => haq (hap ▸ hc.symm))]
      · rw [if_neg hap, if_neg hap, ih]

/-! ## Characterising `_compute_spans` of `block_selection.py` -/


theorem foldl_add_shift (l : List (PeerID × ServerInfo)) :
    ∀ s : ℚ, l.foldl (fun a kv => a + kv.2.throughput) s =
      s + l.foldl (fun a kv => a + kv.2.throughput) 0 := by
  induction l with
  | nil => intro s; simp
  | cons kv tl ih =>
    intro s
    rw [List.foldl_cons, List.foldl_cons, ih, ih (0 + kv.2.throughput)]
    ring

theorem serverSum_cons (kv : PeerID × ServerInfo) (tl : List (PeerID × ServerInfo)) :
    serverSum (kv :: tl) =
      (if nonOffline kv then kv.2.throughput else 0) + serverSum tl := by
  unfold serverSum
  rw [List.filter_cons]
  by_cases h : nonOffline kv
  · rw [if_pos h, if_pos h, List.foldl_cons, foldl_add_shift]
    ring
  · rw [if_neg h, if_neg h, zero_add]

/-- Throughput component of the inner fold of `_compute_spans` over a block's
servers: index `block` of the throughput vector gains the block's non-OFFLINE
aggregate, everything else is untouched. -/
theorem bsServersFold_getD (block : Nat) :
    ∀ (servers : List (PeerID × ServerInfo)) (spans : List (PeerID × BsSpan))
      (ts : List ℚ) (j : Nat),
      ((servers.foldl (bsStepServer block) (spans, ts)).2).getD j 0 =
        if j = block ∧ block < ts.length then ts.getD j 0 + serverSum servers
        else ts.getD j 0 := by
  intro servers
  induction servers with
  | nil =>
    intro spans ts j
    show ts.getD j 0 = _
    by_cases h : j = block ∧ block < ts.length
    · rw [if_pos h]
      unfold serverSum
      simp
    · rw [if_neg h]
  | cons kv tl ih =>
    intro spans ts j
    rw [List.foldl_cons]
    by_cases hoff : kv.2.state = ServerState.offline
    · have hstep : bsStepServer block (spans, ts) kv = (spans, ts) := by
        unfold bsStepServer
        rw [if_pos hoff]
      have hno : nonOffline kv = false := by simp [nonOffline, hoff]
      rw [hstep, ih, serverSum_cons, hno]
      simp
    · have hno : nonOffline kv = true := by simp [nonOffline, hoff]
      obtain ⟨spans1, hstep⟩ :
          ∃ spans1, bsStepServer block (spans, ts) kv =
            (spans1, ts.set block (ts.getD block 0 + kv.2.throughput)) := by
        unfold bsStepServer
        rw [if_neg hoff]
        exact ⟨_, rfl⟩
      rw [hstep, ih, serverSum_cons, hno, if_pos rfl]
      have hlen1 : (ts.set block (ts.getD block 0 + kv.2.throughput)).length = ts.length :=
        List.length_set ..
      rw [hlen1]
      by_cases hj : j = block ∧ block < ts.length
      · rw [if_pos hj, if_pos hj]
        have : (ts.set block (ts.getD block 0 + kv.2.throughput)).getD j 0 =
            ts.getD j 0 + kv.2.throughput := by
          rw [hj.1, List.getD_eq_getElem?_getD,
            List.getElem?_set_self hj.2, List.getD_eq_getElem?_getD]
          rfl
        rw [this]
        ring
      · rw [if_neg hj, if_neg hj]
        rcases Decidable.not_and_iff_or_not.1 hj with hj1 | hj2
        · rw [List.getD_eq_getElem?_getD,
            List.getElem?_set_ne (fun hc => hj1 hc.symm), ← List.getD_eq_getElem?_getD]
        · have : ts.set block (ts.getD block 0 + kv.2.throughput) = ts :=
            List.set_eq_of_length_le (by omega)
          rw [this]

theorem appearsIn_cons (kv : PeerID × ServerInfo) (tl : List (PeerID × ServerInfo))
    (p : PeerID) :
    appearsIn (kv :: tl) p = ((decide (kv.1 = p) && nonOffline kv) || appearsIn tl p) := by
  unfold appearsIn
  rw [List.any_cons]

theorem thrIn_cons (kv : PeerID × ServerInfo) (tl : List (PeerID × ServerInfo))
    (p : PeerID) :
    thrIn (kv :: tl) p =
      if (decide (kv.1 = p) && nonOffline kv) = true then kv.2.throughput
      else thrIn tl p := by
  unfold thrIn
  rw [List.find?_cons]
  by_cases h : (decide (kv.1 = p) && nonOffline kv) = true
  · rw [if_pos h, h]
  · rw [if_neg h]
    cases hb : (decide (kv.1 = p) && nonOffline kv)
    · rfl
    · exact absurd hb h

/-- Span-map component of the inner fold of `_compute_spans` over a block's
servers: a peer with a non-OFFLINE entry gets its span opened at this block
(with the throughput of its first non-OFFLINE entry) or its `stop` pushed to
`block + 1` (keeping `start` and `throughput`, given the invariant that every
recorded `start` is at most the current block); everyone else is untouched. -/
theorem bsServersFold_lookup (block : Nat) :
    ∀ (servers : List (PeerID × ServerInfo)) (spans : List (PeerID × BsSpan))
      (ts : List ℚ),
      NodupKeys spans →
      (∀ p s, lookupA spans p = some s → s.start ≤ block) →
      (∀ p, lookupA ((servers.foldl (bsStepServer block) (spans, ts)).1) p =
        (if appearsIn servers p then
          match lookupA spans p with
          | none => some ⟨block, block + 1, thrIn servers p⟩
          | some s => some ⟨s.start, block + 1, s.throughput⟩
        else lookupA spans p)) ∧
      NodupKeys ((servers.foldl (bsStepServer block) (spans, ts)).1) := by
  intro servers
  induction servers with
  | nil =>
    intro spans ts hnd _
    refine ⟨fun p => ?_, hnd⟩
    have : appearsIn [] p = false := rfl
    rw [this]
    simp
  | cons kv tl ih =>
    intro spans ts hnd hstart
    rw [List.foldl_cons]
    by_cases hoff : kv.2.state = ServerState.offline
    · -- OFFLINE entries are skipped entirely
      have hstep : bsStepServer block (spans, ts) kv = (spans, ts) := by
        unfold bsStepServer
        rw [if_pos hoff]
      rw [hstep]
      obtain ⟨hlook, hnd2⟩ := ih spans ts hnd hstart
      refine ⟨fun p => ?_, hnd2⟩
      have hno : nonOffline kv = false := by simp [nonOffline, hoff]
      rw [hlook p, appearsIn_cons, thrIn_cons, hno]
      simp
    · have hno : nonOffline kv = true := by simp [nonOffline, hoff]
      cases hl : lookupA spans kv.1 with
      | some s0 =>
        -- the peer already has a span: start stays, stop becomes block+1
        have hle : s0.start ≤ block := hstart _ _ hl
        have hmin : min s0.start block = s0.start := min_eq_left hle
        have hmax : max s0.start (block + 1) = block + 1 := max_eq_right (by omega)
        have hstep : bsStepServer block (spans, ts) kv =
            (updateSpan spans kv.1 ⟨s0.start, block + 1, s0.throughput⟩,
             ts.set block (ts.getD block 0 + kv.2.throughput)) := by
          unfold bsStepServer
          rw [if_neg hoff]
          simp only [hl, hmin, hmax]
        rw [hstep]
        have hnd1 : NodupKeys (updateSpan spans kv.1 ⟨s0.start, block + 1, s0.throughput⟩) := by
          unfold NodupKeys
          rw [updateSpan_keys]
          exact hnd
        have hstart1 : ∀ p s, lookupA (updateSpan spans kv.1
            ⟨s0.start, block + 1, s0.throughput⟩) p = some s → s.start ≤ block := by
          intro p s hp
          rw [lookupA_updateSpan] at hp
          by_cases hpe : kv.1 = p
          · rw [if_pos hpe] at hp
            cases hq : lookupA spans p with
            | none => rw [hq] at hp; exact absurd hp (by simp)
            | some s1 =>
              rw [hq] at hp
              have : s = ⟨s0.start, block + 1, s0.throughput⟩ := by
                simpa using hp.symm
              rw [this]
              exact hle
          · rw [if_neg hpe] at hp
            exact hstart _ _ hp
        obtain ⟨hlook, hnd2⟩ := ih _ _ hnd1 hstart1
        refine ⟨fun p => ?_, hnd2⟩
        rw [hlook p, appearsIn_cons, thrIn_cons, hno]
        by_cases hpe : kv.1 = p
        · have hdp : decide (kv.1 = p) = true := by simp [hpe]
          rw [hdp]
          have hsp1 : lookupA (updateSpan spans kv.1
              ⟨s0.start, block + 1, s0.throughput⟩) p =
              some ⟨s0.start, block + 1, s0.throughput⟩ := by
            rw [lookupA_updateSpan, if_pos hpe, ← hpe, hl]
            rfl
          have hsp : lookupA spans p = some s0 := by rw [← hpe, hl]
          rw [hsp1, hsp]
          by_cases hap : appearsIn tl p = true
          · simp [hap]
          · have : appearsIn tl p = false := by
              cases hh : appearsIn tl p
              · rfl
              · exact absurd hh hap
            simp [this]
        · have hdp : decide (kv.1 = p) = false := by simp [hpe]
          have hsp1 : lookupA (updateSpan spans kv.1
              ⟨s0.start, block + 1, s0.throughput⟩) p = lookupA spans p := by
            rw [lookupA_updateSpan, if_neg hpe]
          rw [hdp, hsp1]
          simp
      | none =>
        -- new peer: open span [block, block+1) with this entry's throughput
        have hstep : bsStepServer block (spans, ts) kv =
            (spans ++ [(kv.1, ⟨block, block + 1, kv.2.throughput⟩)],
             ts.set block (ts.getD block 0 + kv.2.throughput)) := by
          unfold bsStepServer
          rw [if_neg hoff]
          simp only [hl]
        rw [hstep]
        have hnotmem : kv.1 ∉ spans.map Prod.fst := (lookupA_eq_none spans kv.1).1 hl
        have hnd1 : NodupKeys (spans ++ [(kv.1, ⟨block, block + 1, kv.2.throughput⟩)]) := by
          unfold NodupKeys
          rw [List.map_append]
          simp only [List.map_cons, List.map_nil]
          rw [List.nodup_append]
          exact ⟨hnd, List.nodup_singleton _, by simpa using hnotmem⟩
        have happlook : ∀ p, lookupA (spans ++ [(kv.1, ⟨block, block + 1, kv.2.throughput⟩)]) p =
            if kv.1 = p then (lookupA spans p).or (some ⟨block, block + 1, kv.2.throughput⟩)
            else lookupA spans p := by
          intro p
          rw [lookupA_append]
          by_cases hpe : kv.1 = p
          · rw [if_pos hpe, lookupA_cons, if_pos hpe]
          · rw [if_neg hpe, lookupA_cons, if_neg hpe]
            show (lookupA spans p).or (lookupA [] p) = _
            cases lookupA spans p <;> rfl
        have hstart1 : ∀ p s, lookupA (spans ++ [(kv.1, ⟨block, block + 1, kv.2.throughput⟩)]) p
            = some s → s.start ≤ block := by
          intro p s hp
          rw [happlook] at hp
          by_cases hpe : kv.1 = p
          · rw [if_pos hpe, ← hpe, hl] at hp
            have : s = ⟨block, block + 1, kv.2.throughput⟩ := by simpa using hp.symm
            rw [this]
          · rw [if_neg hpe] at hp
            exact hstart _ _ hp
        obtain ⟨hlook, hnd2⟩ := ih _ _ hnd1 hstart1
        refine ⟨fun p => ?_, hnd2⟩
        rw [hlook p, appearsIn_cons, thrIn_cons, hno]
        by_cases hpe : kv.1 = p
        · have hdp : decide (kv.1 = p) = true := by simp [hpe]
          rw [hdp]
          have hsp1 : lookupA (spans ++ [(kv.1, ⟨block, block + 1, kv.2.throughput⟩)]) p =
              some ⟨block, block + 1, kv.2.throughput⟩ := by
            rw [happlook, if_pos hpe, ← hpe, hl]
            rfl
          have hsp : lookupA spans p = none := by rw [← hpe]; exact hl
          rw [hsp1, hsp]
          by_cases hap : appearsIn tl p = true
          · simp [hap]
          · have : appearsIn tl p = false := by
              cases hh : appearsIn tl p
              · rfl
              · exact absurd hh hap
            simp [this]
        · have hdp : decide (kv.1 = p) = false := by simp [hpe]
          have hsp1 : lookupA (spans ++ [(kv.1, ⟨block, block + 1, kv.2.throughput⟩)]) p =
              lookupA spans p := by
            rw [happlook, if_neg hpe]
          rw [hdp, hsp1]
          simp

theorem bsServersFold_len (block : Nat) :
    ∀ (servers : List (PeerID × ServerInfo)) (spans : List (PeerID × BsSpan))
      (ts : List ℚ),
      ((servers.foldl (bsStepServer block) (spans, ts)).2).length = ts.length := by
  intro servers
  induction servers with
  | nil => intro spans ts; rfl
  | cons kv tl ih =>
    intro spans ts
    rw [List.foldl_cons]
    by_cases hoff : kv.2.state = ServerState.offline
    · have hstep : bsStepServer block (spans, ts) kv = (spans, ts) := by
        unfold bsStepServer
        rw [if_pos hoff]
      rw [hstep, ih]
    · obtain ⟨spans1, hstep⟩ :
          ∃ spans1, bsStepServer block (spans, ts) kv =
            (spans1, ts.set block (ts.getD block 0 + kv.2.throughput)) := by
        unfold bsStepServer
        rw [if_neg hoff]
        exact ⟨_, rfl⟩
      rw [hstep, ih, List.length_set]

/-- Scan-level characterisation of the span map of `_compute_spans`:
starting from a state whose recorded starts all precede `k`, processing the
blocks from index `k` transforms each peer's entry exactly as the reference
description `expectedSpanAux` says. -/
theorem bsScan_lookup :
    ∀ (mos : List (Option ModuleInfo)) (k : Nat) (spans : List (PeerID × BsSpan))
      (ts : List ℚ),
      NodupKeys spans →
      (∀ p s, lookupA spans p = some s → s.start < k) →
      (∀ p, lookupA ((bsScan k mos (spans, ts)).1) p =
        expectedSpanAux p mos k (lookupA spans p)) ∧
      NodupKeys ((bsScan k mos (spans, ts)).1) := by
  intro mos
  induction mos with
  | nil =>
    intro k spans ts hnd _
    exact ⟨fun p => rfl, hnd⟩
  | cons mo rest ih =>
    intro k spans ts hnd hstart
    show (∀ p, lookupA ((bsScan (k + 1) rest (bsStepBlock (spans, ts) k mo)).1) p = _) ∧ _
    cases mo with
    | none =>
      have hstep : bsStepBlock (spans, ts) k (none : Option ModuleInfo) = (spans, ts) := rfl
      rw [hstep]
      obtain ⟨hlook, hnd2⟩ := ih (k + 1) spans ts hnd
        (fun p s hp => Nat.lt_succ_of_lt (hstart p s hp))
      refine ⟨fun p => ?_, hnd2⟩
      rw [hlook p]
      show _ = expectedSpanAux p rest (k + 1)
        (if appearsAt none p then _ else lookupA spans p)
      rfl
    | some info =>
      have hstartle : ∀ p s, lookupA spans p = some s → s.start ≤ k :=
        fun p s hp => Nat.le_of_lt (hstart p s hp)
      obtain ⟨hinner, hndi⟩ := bsServersFold_lookup k info.servers spans ts hnd hstartle
      have hstep : bsStepBlock (spans, ts) k (some info) =
          info.servers.foldl (bsStepServer k) (spans, ts) := rfl
      rw [hstep]
      have hstart1 : ∀ p s,
          lookupA ((info.servers.foldl (bsStepServer k) (spans, ts)).1) p = some s →
            s.start < k + 1 := by
        intro p s hp
        rw [hinner p] at hp
        by_cases hap : appearsIn info.servers p = true
        · rw [if_pos hap] at hp
          cases hq : lookupA spans p with
          | none =>
            rw [hq] at hp
            have : s = ⟨k, k + 1, thrIn info.servers p⟩ := by simpa using hp.symm
            rw [this]
            exact Nat.lt_succ_self k
          | some s0 =>
            rw [hq] at hp
            have : s = ⟨s0.start, k + 1, s0.throughput⟩ := by simpa using hp.symm
            rw [this]
            exact Nat.lt_succ_of_lt (hstart p s0 hq)
        · rw [if_neg hap] at hp
          exact Nat.lt_succ_of_lt (hstart p s hp)
      obtain ⟨hlook, hnd2⟩ := ih (k + 1)
        ((info.servers.foldl (bsStepServer k) (spans, ts)).1)
        ((info.servers.foldl (bsStepServer k) (spans, ts)).2) hndi hstart1
      refine ⟨fun p => ?_, ?_⟩
      · rw [Prod.mk.eta] at hlook
        rw [hlook p, hinner p]
        rfl
      · rw [Prod.mk.eta] at hnd2
        exact hnd2

/-- Scan-level characterisation of the throughput vector of `_compute_spans`:
processing the blocks from index `k` adds each block's non-OFFLINE aggregate
to its own entry of the vector and touches nothing else. -/
theorem bsScan_getD :
    ∀ (mos : List (Option ModuleInfo)) (k : Nat) (spans : List (PeerID × BsSpan))
      (ts : List ℚ) (j : Nat),
      k + mos.length ≤ ts.length →
      ((bsScan k mos (spans, ts)).2).getD j 0 =
        if k ≤ j ∧ j < k + mos.length then
          ts.getD j 0 + blockSum (mos.getD (j - k) none)
        else ts.getD j 0 := by
  intro mos
  induction mos with
  | nil =>
    intro k spans ts j _
    rw [if_neg (by simp only [List.length_nil]; omega)]
    rfl
  | cons mo rest ih =>
    intro k spans ts j hlen
    show ((bsScan (k + 1) rest (bsStepBlock (spans, ts) k mo)).2).getD j 0 = _
    have hlen' : k + (1 + rest.length) ≤ ts.length := by
      simp only [List.length_cons] at hlen
      omega
    have hkts : k < ts.length := by omega
    cases mo with
    | none =>
      have hstep : bsStepBlock (spans, ts) k (none : Option ModuleInfo) = (spans, ts) := rfl
      rw [hstep, ih (k + 1) spans ts j (by omega)]
      rcases Nat.lt_trichotomy j k with hj | hj | hj
      · rw [if_neg (by omega), if_neg (by omega)]
      · subst hj
        rw [if_neg (by omega), if_pos (by simp only [List.length_cons]; omega)]
        have h0 : ((none : Option ModuleInfo) :: rest).getD (j - j) none = none := by
          rw [Nat.sub_self]
          rfl
        rw [h0]
        show ts.getD j 0 = ts.getD j 0 + blockSum none
        show ts.getD j 0 = ts.getD j 0 + 0
        rw [add_zero]
      · by_cases hin : j < k + 1 + rest.length
        · rw [if_pos (by omega), if_pos (by simp only [List.length_cons]; omega)]
          have hsub : j - k = (j - (k + 1)) + 1 := by omega
          rw [hsub, List.getD_cons_succ]
        · rw [if_neg (by omega), if_neg (by simp only [List.length_cons]; omega)]
    | some info =>
      have hstep : bsStepBlock (spans, ts) k (some info) =
          info.servers.foldl (bsStepServer k) (spans, ts) := rfl
      rw [hstep]
      have hlen1 : ((info.servers.foldl (bsStepServer k) (spans, ts)).2).length = ts.length :=
        bsServersFold_len ..
      have hih := ih (k + 1) ((info.servers.foldl (bsStepServer k) (spans, ts)).1)
        ((info.servers.foldl (bsStepServer k) (spans, ts)).2) j (by omega)
      rw [Prod.mk.eta] at hih
      rw [hih]
      have hinner := bsServersFold_getD k info.servers spans ts
      rcases Nat.lt_trichotomy j k with hj | hj | hj
      · rw [if_neg (by omega), if_neg (by simp only [List.length_cons]; omega),
          hinner j, if_neg (by omega)]
      · rw [if_neg (show ¬(k + 1 ≤ j ∧ j < k + 1 + rest.length) by omega),
          if_pos (show k ≤ j ∧ j < k + (some info :: rest).length by
            simp only [List.length_cons]; omega),
          hinner j, if_pos (show j = k ∧ k < ts.length from ⟨hj, hkts⟩)]
        have h0 : (some info :: rest).getD (j - k) none = some info := by
          rw [hj, Nat.sub_self]
          rfl
        rw [h0]
        rfl
      · rw [hinner j, if_neg (show ¬(j = k ∧ k < ts.length) by omega)]
        by_cases hin : j < k + 1 + rest.length
        · rw [if_pos (show k + 1 ≤ j ∧ j < k + 1 + rest.length from ⟨by omega, hin⟩),
            if_pos (show k ≤ j ∧ j < k + (some info :: rest).length by
              simp only [List.length_cons]; omega)]
          have hsub : j - k = (j - (k + 1)) + 1 := by omega
          rw [hsub, List.getD_cons_succ]
        · rw [if_neg (show ¬(k + 1 ≤ j ∧ j < k + 1 + rest.length) by omega),
            if_neg (show ¬(k ≤ j ∧ j < k + (some info :: rest).length) by
              simp only [List.length_cons]; omega)]

/-- The claim C4 theorem below needs that the throughput vector has one entry
per block; proved later from the full characterisation, but the length alone
has a direct proof. -/
theorem bsScan_ts_length :
    ∀ (mos : List (Option ModuleInfo)) (k : Nat) (st : List (PeerID × BsSpan) × List ℚ),
      (bsScan k mos st).2.length = st.2.length := by
  intro mos
  induction mos with
  | nil => intro k st; rfl
  | cons mo rest ih =>
    intro k st
    rw [bsScan, ih]
    cases mo with
    | none => rfl
    | some info =>
      show (info.servers.foldl (bsStepServer k) st).2.length = st.2.length
      induction info.servers generalizing st with
      | nil => rfl
      | cons kv tl ihs =>
        rw [List.foldl_cons, ihs]
        unfold bsStepServer
        by_cases hoff : kv.2.state = ServerState.offline
        · rw [if_pos hoff]
        · rw [if_neg hoff]
          exact List.length_set _ _ _

theorem bs_compute_spans_ts_length (infos : List (Option ModuleInfo)) :
    (bs_compute_spans infos).2.length = infos.length := by
  unfold bs_compute_spans
  rw [bsScan_ts_length]
  exact List.length_replicate _ _

/-- C4: `choose_best_blocks(num_blocks, module_infos)` is deterministic given a
snapshot (it is a pure function of `module_infos` in this embedding) and
returns the contiguous window `[start, start + num_blocks)` whose sorted
per-block aggregate-throughput vector is lexicographically ≤ the sorted vector
of every other window of the same length over that snapshot. -/
theorem claim_C4 (num_blocks : Nat) (module_infos : List (Option ModuleInfo))
    (h : num_blocks ≤ module_infos.length) :
    ∃ start, choose_best_blocks num_blocks module_infos =
        some (List.range' start num_blocks) ∧
      start + num_blocks ≤ module_infos.length ∧
      ∀ j, j + num_blocks ≤ module_infos.length →
        pyListLt (sortedWindow (bs_compute_spans module_infos).2 num_blocks j)
          (sortedWindow (bs_compute_spans module_infos).2 num_blocks start) = false := by
  have hlen := bs_compute_spans_ts_length module_infos
  obtain ⟨s, hs, hbound, hmin⟩ :=
    choose_best_start_spec (bs_compute_spans module_infos).2 num_blocks none
      (by rw [hlen]; exact h)
  refine ⟨s, ?_, by omega, ?_⟩
  · unfold choose_best_blocks
    rw [hs]
  · intro j hj
    exact hmin j (by omega)

/-- Witness for C4 at the concrete snapshot `exInfosA`. -/
theorem claim_C4_witness :
    ∃ start, choose_best_blocks 1 exInfosA = some (List.range' start 1) ∧
      start + 1 ≤ exInfosA.length ∧
      ∀ j, j + 1 ≤ exInfosA.length →
        pyListLt (sortedWindow (bs_compute_spans exInfosA).2 1 j)
          (sortedWindow (bs_compute_spans exInfosA).2 1 start) = false :=
  claim_C4 1 exInfosA (by decide)

/-! ## Extensional characterisation of `_compute_spans` (claims C6, C10) -/

theorem expectedSpanAux_append (p : PeerID) :
    ∀ (l1 l2 : List (Option ModuleInfo)) (k : Nat) (acc : Option BsSpan),
      expectedSpanAux p (l1 ++ l2) k acc =
        expectedSpanAux p l2 (k + l1.length) (expectedSpanAux p l1 k acc) := by
  intro l1
  induction l1 with
  | nil => intro l2 k acc; rfl
  | cons mo rest ih =>
    intro l2 k acc
    show expectedSpanAux p (rest ++ l2) (k + 1) _ = _
    rw [ih]
    have hlen : k + 1 + rest.length = k + (mo :: rest).length := by
      simp only [List.length_cons]
      omega
    rw [hlen]
    rfl

theorem expectedSpan_snoc (p : PeerID) (infos : List (Option ModuleInfo))
    (mo : Option ModuleInfo) :
    expectedSpan (infos ++ [mo]) p =
      if appearsAt mo p then
        match expectedSpan infos p with
        | none => some ⟨infos.length, infos.length + 1, thrAt mo p⟩
        | some s => some ⟨s.start, infos.length + 1, s.throughput⟩
      else expectedSpan infos p := by
  unfold expectedSpan
  rw [expectedSpanAux_append]
  have hz : 0 + infos.length = infos.length := Nat.zero_add _
  rw [hz]
  rfl

/-- Full description of the reference span of a peer: peers never seen
non-OFFLINE get no span; the others get exactly the bridged span of claim C10. -/
theorem expectedSpan_facts (p : PeerID) (infos : List (Option ModuleInfo)) :
    (expectedSpan infos p = none ↔
      ∀ i, i < infos.length → appearsAt (infos.getD i none) p = false) ∧
    (∀ s, expectedSpan infos p = some s → bridgedSpanFacts infos p s) := by
  induction infos using List.reverseRecOn with
  | nil =>
    constructor
    · constructor
      · intro _ i hi
        simp at hi
      · intro _
        rfl
    · intro s hs
      exact absurd hs (by simp [expectedSpan, expectedSpanAux])
  | append_singleton l mo ih =>
    have hlen : (l ++ [mo]).length = l.length + 1 := by
      rw [List.length_append]
      rfl
    have hgetl : ∀ i, i < l.length → (l ++ [mo]).getD i none = l.getD i none :=
      fun i hi => List.getD_append l [mo] none i hi
    have hgetr : (l ++ [mo]).getD l.length none = mo := by
      rw [List.getD_append_right l [mo] none l.length (le_refl _), Nat.sub_self]
      rfl
    rw [expectedSpan_snoc]
    by_cases happ : appearsAt mo p = true
    · rw [if_pos happ]
      cases hacc : expectedSpan l p with
      | none =>
        constructor
        · constructor
          · intro hc
            exact absurd hc (by simp)
          · intro hall
            exfalso
            have := hall l.length (by omega)
            rw [hgetr, happ] at this
            exact Bool.true_eq_false ▸ absurd this (by simp)
        · intro s hs
          have hseq : s = ⟨l.length, l.length + 1, thrAt mo p⟩ := by
            simpa using hs.symm
          subst hseq
          refine ⟨Nat.lt_succ_self _, ?_, ?_, ?_, ?_, ?_, ?_⟩
          · show l.length + 1 ≤ (l ++ [mo]).length
            omega
          · intro i hi
            show appearsAt ((l ++ [mo]).getD i none) p = false
            rw [hgetl i hi]
            exact (ih.1.1 hacc) i hi
          · show appearsAt ((l ++ [mo]).getD l.length none) p = true
            rw [hgetr]
            exact happ
          · show appearsAt ((l ++ [mo]).getD (l.length + 1 - 1) none) p = true
            rw [Nat.add_sub_cancel, hgetr]
            exact happ
          · intro i hi1 hi2
            have hi1a : l.length + 1 ≤ i := hi1
            rw [hlen] at hi2
            omega
          · show thrAt mo p = thrAt ((l ++ [mo]).getD l.length none) p
            rw [hgetr]
      | some s0 =>
        have hfacts := ih.2 s0 hacc
        obtain ⟨hs1, hs2, hs3, hs4, hs5, hs6, hs7⟩ := hfacts
        constructor
        · constructor
          · intro hc
            exact absurd hc (by simp)
          · intro hall
            exfalso
            have := hall l.length (by omega)
            rw [hgetr, happ] at this
            exact absurd this (by simp)
        · intro s hs
          have hseq : s = ⟨s0.start, l.length + 1, s0.throughput⟩ := by
            simpa using hs.symm
          subst hseq
          have hstartlt : s0.start < l.length := by omega
          refine ⟨?_, ?_, ?_, ?_, ?_, ?_, ?_⟩
          · show s0.start < l.length + 1
            omega
          · show l.length + 1 ≤ (l ++ [mo]).length
            omega
          · intro i hi
            have hia : i < s0.start := hi
            show appearsAt ((l ++ [mo]).getD i none) p = false
            rw [hgetl i (by omega)]
            exact hs3 i hia
          · show appearsAt ((l ++ [mo]).getD s0.start none) p = true
            rw [hgetl s0.start hstartlt]
            exact hs4
          · show appearsAt ((l ++ [mo]).getD (l.length + 1 - 1) none) p = true
            rw [Nat.add_sub_cancel, hgetr]
            exact happ
          · intro i hi1 hi2
            have hi1a : l.length + 1 ≤ i := hi1
            rw [hlen] at hi2
            omega
          · show s0.throughput = thrAt ((l ++ [mo]).getD s0.start none) p
            rw [hgetl s0.start hstartlt]
            exact hs7
    · have happf : appearsAt mo p = false := by
        cases hh : appearsAt mo p
        · rfl
        · exact absurd hh happ
      rw [if_neg (by rw [happf]; simp)]
      constructor
      · rw [ih.1]
        constructor
        · intro hall i hi
          rw [hlen] at hi
          by_cases hil : i < l.length
          · rw [hgetl i hil]
            exact hall i hil
          · have : i = l.length := by omega
            rw [this, hgetr]
            exact happf
        · intro hall i hi
          have := hall i (by rw [hlen]; omega)
          rw [hgetl i hi] at this
          exact this
      · intro s hs
        obtain ⟨hs1, hs2, hs3, hs4, hs5, hs6, hs7⟩ := ih.2 s hs
        refine ⟨hs1, by omega, ?_, ?_, ?_, ?_, ?_⟩
        · intro i hi
          rw [hgetl i (by omega)]
          exact hs3 i hi
        · rw [hgetl s.start (by omega)]
          exact hs4
        · rw [hgetl (s.stop - 1) (by omega)]
          exact hs5
        · intro i hi1 hi2
          rw [hlen] at hi2
          by_cases hil : i < l.length
          · rw [hgetl i hil]
            exact hs6 i hi1 hil
          · have : i = l.length := by omega
            rw [this, hgetr]
            exact happf
        · rw [hgetl s.start (by omega)]
          exact hs7

theorem bs_compute_spans_lookup (infos : List (Option ModuleInfo)) (p : PeerID) :
    lookupA (bs_compute_spans infos).1 p = expectedSpan infos p := by
  have h := bsScan_lookup infos 0 [] (List.replicate infos.length 0)
    (by simp [NodupKeys])
    (fun q s hq => by simp [lookupA] at hq)
  exact h.1 p

theorem bs_compute_spans_nodup (infos : List (Option ModuleInfo)) :
    NodupKeys (bs_compute_spans infos).1 := by
  have h := bsScan_lookup infos 0 [] (List.replicate infos.length 0)
    (by simp [NodupKeys])
    (fun q s hq => by simp [lookupA] at hq)
  exact h.2

/-- The throughput vector of `_compute_spans` is exactly the per-block
non-OFFLINE aggregate. -/
theorem bs_compute_spans_snd (infos : List (Option ModuleInfo)) :
    (bs_compute_spans infos).2 = infos.map blockSum := by
  apply List.ext_getElem?
  intro n
  have hlen : (bs_compute_spans infos).2.length = infos.length :=
    bs_compute_spans_ts_length infos
  by_cases hn : n < infos.length
  · have hl : (bs_compute_spans infos).2[n]? = some ((bs_compute_spans infos).2.getD n 0) := by
      rw [List.getElem?_eq_getElem (by omega), List.getD_eq_getElem?_getD,
        List.getElem?_eq_getElem (by omega)]
      rfl
    have hscan := bsScan_getD infos 0 [] (List.replicate infos.length 0) n
      (by rw [List.length_replicate]; omega)
    have hrep : (List.replicate infos.length (0 : ℚ)).getD n 0 = 0 := by
      rw [List.getD_eq_getElem?_getD, List.getElem?_replicate, if_pos hn]
      rfl
    have hval : (bs_compute_spans infos).2.getD n 0 = blockSum (infos.getD n none) := by
      show ((bsScan 0 infos ([], List.replicate infos.length 0)).2).getD n 0 = _
      rw [hscan, if_pos ⟨Nat.zero_le n, by omega⟩, Nat.sub_zero, hrep, zero_add]
    rw [hl, hval, List.getElem?_map, List.getElem?_eq_getElem hn]
    show some (blockSum (infos.getD n none)) = some (blockSum infos[n])
    have : infos.getD n none = infos[n] := by
      rw [List.getD_eq_getElem?_getD, List.getElem?_eq_getElem hn]
      rfl
    rw [this]
  · rw [List.getElem?_eq_none (by omega), List.getElem?_eq_none (by rw [List.length_map]; omega)]

/-- C6 — counterexample: the claim says JOINING servers contribute nothing to
any block's aggregate, but on a snapshot whose only server is JOINING with
throughput 5 the aggregate is `[5]`, not `[0]`. -/
theorem claim_C6_counterexample :
    (bs_compute_spans exInfosD).2 = [5] ∧ (5 : ℚ) ≠ 0 := by
  constructor
  · simp [bs_compute_spans, exInfosD, bsScan, bsStepBlock, bsStepServer, lookupA,
      List.replicate, show (ServerState.joining = ServerState.offline) = False from by simp]
  · norm_num

/-- C6 (amended): the per-block aggregate used by the placement optimizer sums
the throughput of every *non-OFFLINE* server — ONLINE and JOINING alike; only
OFFLINE servers contribute nothing (`blockSum` filters on `nonOffline`). -/
theorem claim_C6 (module_infos : List (Option ModuleInfo)) :
    (bs_compute_spans module_infos).2 = module_infos.map blockSum :=
  bs_compute_spans_snd module_infos

/-- C10: in the placement optimizer's span computation every peer appearing
non-OFFLINE on at least one block is assigned exactly one span (the span map
has unique keys and a lookup succeeds precisely for such peers), and that span
runs from the peer's first to its last non-OFFLINE block — absent/OFFLINE
blocks in between are bridged — with the throughput recorded at the first such
block (`bridgedSpanFacts`). -/
theorem claim_C10 (module_infos : List (Option ModuleInfo)) (p : PeerID) :
    NodupKeys (bs_compute_spans module_infos).1 ∧
    (lookupA (bs_compute_spans module_infos).1 p = none ↔
      ∀ i, i < module_infos.length →
        appearsAt (module_infos.getD i none) p = false) ∧
    (∀ s, lookupA (bs_compute_spans module_infos).1 p = some s →
      bridgedSpanFacts module_infos p s) := by
  refine ⟨bs_compute_spans_nodup module_infos, ?_, ?_⟩
  · rw [bs_compute_spans_lookup]
    exact (expectedSpan_facts p module_infos).1
  · intro s hs
    rw [bs_compute_spans_lookup] at hs
    exact (expectedSpan_facts p module_infos).2 s hs

/-- Witness for C10: on `exInfos10` peer 3 gets the single bridged span
`[0, 3)` with the throughput of its first non-OFFLINE block. -/
theorem claim_C10_witness : bridgedSpanFacts exInfos10 3 ⟨0, 3, 2⟩ :=
  (claim_C10 exInfos10 3).2.2 ⟨0, 3, 2⟩ (by rfl)


/-! ## Claims C5 and C7 — `should_choose_other_blocks` -/

/-- C5 (amended): for `min_balance_quality ≤ 1`, a terminating run of
`should_choose_other_blocks` returns `true` iff the caller's recomputed best
window start differs from its current one *and* the post-convergence balance
comparison holds (`balanceDecision`, which is false when the post-convergence
minimum is zero, matching the numpy `inf`/`nan` comparison semantics). -/
theorem claim_C5 (oracle : Nat → List PeerID → List PeerID) (fuel : Nat)
    (peer : PeerID) (infos : List (Option ModuleInfo)) (mbq : ℚ) (b : Bool)
    (hq : mbq ≤ 1)
    (hrun : should_choose_other_blocks oracle fuel peer infos mbq = .ok b) :
    b = true ↔ ∃ lsp ns spansF tsF,
      sc_afterCaller peer infos = .ok (lsp, ns) ∧ lsp.start ≠ ns ∧
      sc_loopState oracle fuel peer infos = .ok (spansF, tsF) ∧
      balanceDecision (listMin (bs_compute_spans infos).2) (listMin tsF) mbq = true := by
  unfold should_choose_other_blocks at hrun
  rw [if_neg (not_lt.2 hq)] at hrun
  cases hac : sc_afterCaller peer infos with
  | error e =>
    rw [hac] at hrun
    exact absurd hrun (by simp)
  | ok pr =>
    obtain ⟨lsp, ns⟩ := pr
    rw [hac] at hrun
    dsimp only at hrun
    by_cases hstart : lsp.start = ns
    · rw [if_pos hstart] at hrun
      have hb : b = false := (Except.ok.inj hrun).symm
      subst hb
      constructor
      · intro hc
        exact absurd hc (by simp)
      · rintro ⟨lsp2, ns2, _, _, h1, h2, _, _⟩
        have hpair := Except.ok.inj h1
        have he1 : lsp = lsp2 := congrArg Prod.fst hpair
        have he2 : ns = ns2 := congrArg Prod.snd hpair
        have : lsp2.start = ns2 := by
          rw [← he1, ← he2]
          exact hstart
        exact absurd this h2
    · rw [if_neg hstart] at hrun
      cases hls : sc_loopState oracle fuel peer infos with
      | error e =>
        rw [hls] at hrun
        exact absurd hrun (by simp)
      | ok st2 =>
        obtain ⟨spansF, tsF⟩ := st2
        rw [hls] at hrun
        dsimp only at hrun
        have hb : b = balanceDecision (listMin (bs_compute_spans infos).2)
            (listMin tsF) mbq := (Except.ok.inj hrun).symm
        constructor
        · intro htrue
          exact ⟨lsp, ns, spansF, tsF, rfl, hstart, rfl, by rw [← hb, htrue]⟩
        · rintro ⟨lsp2, ns2, spansF2, tsF2, h1, _, h3, h4⟩
          have htF : tsF = tsF2 := congrArg Prod.snd (Except.ok.inj h3)
          rw [hb, htF]
          exact h4

/-- Witness for C5 at `exInfosC`: the run returns `true`, and the theorem's
equivalence therefore exhibits the caller's beneficial move. -/
theorem claim_C5_witness :
    true = true ↔ ∃ lsp ns spansF tsF,
      sc_afterCaller 0 exInfosC = .ok (lsp, ns) ∧ lsp.start ≠ ns ∧
      sc_loopState idOracle 10 0 exInfosC = .ok (spansF, tsF) ∧
      balanceDecision (listMin (bs_compute_spans exInfosC).2) (listMin tsF) 1 = true :=
  claim_C5 idOracle 10 0 exInfosC 1 true (by norm_num) (by
    have hON : (ServerState.online = ServerState.offline) = False := by simp
    norm_num [should_choose_other_blocks, sc_afterCaller, sc_loopState, bs_compute_spans,
      bsScan, bsStepBlock, bsStepServer, lookupA, updateSpan, addRange, choose_best_start,
      sortedWindow, tripleLt, pyListLt, tieFlag, listMin, balanceLoop, passPeers,
      balanceDecision, exInfosC, idOracle, scEps, List.insertionSort, List.orderedInsert,
      nonOffline, List.enum, List.enumFrom, List.range_succ, BsSpan.length,
      BsSpan.move_to, List.replicate, hON])

/-- C5 — counterexample to the claim as stated: on `exInfosA` with
`min_balance_quality = 1` the caller (peer 0, spanning both blocks) is already
at its only possible start, so the source returns `false` without simulating
the rebalancing — yet the spec's steps 4–6 (`spec_balance_quality`) converge to
balance quality `1/6 < 1 - ε`, for which the claim demands `true`. -/
theorem claim_C5_counterexample :
    should_choose_other_blocks idOracle 10 0 exInfosA 1 = .ok false ∧
    spec_balance_quality idOracle 10 0 exInfosA = .ok (1 / 6) ∧
    ((1 : ℚ) / 6 < 1 - scEps) := by
  have hON : (ServerState.online = ServerState.offline) = False := by simp
  refine ⟨?_, ?_, by norm_num [scEps]⟩
  · norm_num [should_choose_other_blocks, sc_afterCaller, sc_loopState, bs_compute_spans,
      bsScan, bsStepBlock, bsStepServer, lookupA, updateSpan, addRange, choose_best_start,
      sortedWindow, tripleLt, pyListLt, tieFlag, listMin, balanceLoop, passPeers,
      balanceDecision, exInfosA, idOracle, scEps, List.insertionSort, List.orderedInsert,
      nonOffline, List.enum, List.enumFrom, List.range_succ, BsSpan.length,
      BsSpan.move_to, List.replicate, hON]
  · norm_num [spec_balance_quality, bs_compute_spans,
      bsScan, bsStepBlock, bsStepServer, lookupA, updateSpan, addRange, choose_best_start,
      sortedWindow, tripleLt, pyListLt, tieFlag, listMin, balanceLoop, passPeers,
      exInfosA, idOracle, List.insertionSort, List.orderedInsert,
      nonOffline, List.enum, List.enumFrom, List.range_succ, BsSpan.length,
      BsSpan.move_to, List.replicate, hON]

/-- C7 (amended): when the simulated rebalancing converges with a zero
post-convergence minimum, the numpy float division produces `inf`/`nan`, every
comparison against the threshold is false, and `should_choose_other_blocks`
returns `false` — it does not raise, and it does not recommend moving. -/
theorem claim_C7 (oracle : Nat → List PeerID → List PeerID) (fuel : Nat)
    (peer : PeerID) (infos : List (Option ModuleInfo)) (mbq : ℚ)
    (lsp : BsSpan) (ns : Nat) (spansF : List (PeerID × BsSpan)) (tsF : List ℚ)
    (hq : mbq ≤ 1)
    (hac : sc_afterCaller peer infos = .ok (lsp, ns))
    (hne : lsp.start ≠ ns)
    (hls : sc_loopState oracle fuel peer infos = .ok (spansF, tsF))
    (hzero : listMin tsF = 0) :
    should_choose_other_blocks oracle fuel peer infos mbq = .ok false := by
  unfold should_choose_other_blocks
  rw [if_neg (not_lt.2 hq), hac]
  dsimp only
  rw [if_neg hne, hls]
  dsimp only
  unfold balanceDecision
  rw [hzero, if_pos rfl]

/-- Witness for C7 at `exInfosB`: block 2 is uncovered, the converged
throughput vector is `[5, 1, 0]` with minimum `0`, and the function returns
`false`. -/
theorem claim_C7_witness :
    should_choose_other_blocks idOracle 10 0 exInfosB 1 = .ok false := by
  have hON : (ServerState.online = ServerState.offline) = False := by simp
  refine claim_C7 idOracle 10 0 exInfosB 1 ⟨0, 1, 1⟩ 1
    [(0, ⟨1, 2, 1⟩), (1, ⟨0, 1, 5⟩)] [5, 1, 0] (by norm_num) ?_ (by decide) ?_ ?_
  · norm_num [sc_afterCaller, bs_compute_spans,
      bsScan, bsStepBlock, bsStepServer, lookupA, updateSpan, addRange, choose_best_start,
      sortedWindow, tripleLt, pyListLt, tieFlag, listMin,
      exInfosB, List.insertionSort, List.orderedInsert,
      nonOffline, List.enum, List.enumFrom, List.range_succ, BsSpan.length,
      BsSpan.move_to, List.replicate, hON]
  · norm_num [sc_loopState, sc_afterCaller, bs_compute_spans,
      bsScan, bsStepBlock, bsStepServer, lookupA, updateSpan, addRange, choose_best_start,
      sortedWindow, tripleLt, pyListLt, tieFlag, listMin, balanceLoop, passPeers,
      exInfosB, idOracle, List.insertionSort, List.orderedInsert,
      nonOffline, List.enum, List.enumFrom, List.range_succ, BsSpan.length,
      BsSpan.move_to, List.replicate, hON]
  · norm_num [listMin]

/-- C7 — counterexample to the claim as stated: on `exInfosB` the loop
converges with throughputs `[5, 1, 0]` (minimum zero, block 2 uncovered), and
the function returns `false`, not the `true` the claim requires. -/
theorem claim_C7_counterexample :
    should_choose_other_blocks idOracle 10 0 exInfosB 1 = .ok false ∧
    sc_loopState idOracle 10 0 exInfosB =
      .ok ([(0, ⟨1, 2, 1⟩), (1, ⟨0, 1, 5⟩)], [5, 1, 0]) ∧
    listMin [5, 1, 0] = 0 := by
  have hON : (ServerState.online = ServerState.offline) = False := by simp
  refine ⟨?_, ?_, by norm_num [listMin]⟩
  · norm_num [should_choose_other_blocks, sc_afterCaller, sc_loopState, bs_compute_spans,
      bsScan, bsStepBlock, bsStepServer, lookupA, updateSpan, addRange, choose_best_start,
      sortedWindow, tripleLt, pyListLt, tieFlag, listMin, balanceLoop, passPeers,
      balanceDecision, exInfosB, idOracle, scEps, List.insertionSort, List.orderedInsert,
      nonOffline, List.enum, List.enumFrom, List.range_succ, BsSpan.length,
      BsSpan.move_to, List.replicate, hON]
  · norm_num [sc_loopState, sc_afterCaller, bs_compute_spans,
      bsScan, bsStepBlock, bsStepServer, lookupA, updateSpan, addRange, choose_best_start,
      sortedWindow, tripleLt, pyListLt, tieFlag, listMin, balanceLoop, passPeers,
      exInfosB, idOracle, List.insertionSort, List.orderedInsert,
      nonOffline, List.enum, List.enumFrom, List.range_succ, BsSpan.length,
      BsSpan.move_to, List.replicate, hON]


/-! ## Claims C8, C9, C3 — route-manager error handling and lifecycle -/

/-- C8 (amended): when the requested index has zero covering spans at call
time, `make_sequence` raises `IndexError` immediately (from `random.choice` on
an empty list); no refresh is forced and no retry happens before the error
surfaces — for any remaining fuel and any sequence of random choices. -/
theorem claim_C8 (sbc : List (List RemoteSpanInfo)) (choice : Nat → Nat)
    (end_index fuel current : Nat)
    (hlt : current < end_index)
    (hempty : sbc[current]? = some ([] : List RemoteSpanInfo)) :
    makeSequenceRandom sbc choice end_index (fuel + 1) current =
      .error "IndexError: cannot choose from an empty sequence" := by
  unfold makeSequenceRandom
  rw [if_pos hlt]
  dsimp only
  rw [hempty]
  rfl

/-- Witness for C8: the manager state over `exInfos8` (block 0's only server
OFFLINE) has `spans_containing_block = [[]]`, and `make_sequence(0, 1)` fails
at once. -/
theorem claim_C8_witness :
    makeSequenceRandom (compute_spans exInfos8).2 (fun _ => 0) 1 (4 + 1) 0 =
      .error "IndexError: cannot choose from an empty sequence" :=
  claim_C8 (compute_spans exInfos8).2 (fun _ => 0) 1 4 0 (by decide) (by rfl)

/-- C8 — counterexample to the claim as stated: the claim requires a forced
refresh and one retry before surfacing `NoRouteAvailable`; the source's RANDOM
walk has no refresh or retry path at all, and on a state whose only block has
zero covering spans it surfaces `IndexError` immediately. -/
theorem claim_C8_counterexample :
    makeSequenceRandom (compute_spans exInfos8).2 (fun _ => 0) 1 5 0 =
      .error "IndexError: cannot choose from an empty sequence" := rfl

/-- C9 (spec-modelled): in every execution of the modelled background loop the
readiness event is set exactly once — right after the first refresh completes
— and never cleared. -/
theorem claim_C9 (n : Nat) (h : 1 ≤ n) :
    (specRunTrace n).count ManagerAction.setReady = 1 ∧
    (specRunTrace n).count ManagerAction.clearReady = 0 ∧
    (specRunTrace n).take 2 = [ManagerAction.refresh, ManagerAction.setReady] := by
  induction n with
  | zero => omega
  | succ m ih =>
    by_cases hm : 1 ≤ m
    · obtain ⟨ih1, ih2, ih3⟩ := ih hm
      have hne : m ≠ 0 := by omega
      have hlen : 2 ≤ (specRunTrace m).length := by
        have := congrArg List.length ih3
        simp only [List.length_take] at this
        simp at this
        omega
      refine ⟨?_, ?_, ?_⟩
      · show ((specRunTrace m) ++ _).count _ = 1
        rw [List.count_append, ih1, if_neg hne]
        rfl
      · show ((specRunTrace m) ++ _).count _ = 0
        rw [List.count_append, ih2, if_neg hne]
        rfl
      · show ((specRunTrace m) ++ _).take 2 = _
        rw [List.take_append_of_le_length hlen]
        exact ih3
    · have hm0 : m = 0 := by omega
      subst hm0
      refine ⟨rfl, rfl, rfl⟩

/-- Witness for C9 after three loop iterations. -/
theorem claim_C9_witness :
    (specRunTrace 3).count ManagerAction.setReady = 1 ∧
    (specRunTrace 3).count ManagerAction.clearReady = 0 ∧
    (specRunTrace 3).take 2 = [ManagerAction.refresh, ManagerAction.setReady] :=
  claim_C9 3 (by omega)

theorem update_block_infos_ok_iff :
    ∀ (fetched : List (Option ModuleInfo)) (infos : List ModuleInfo),
      update_block_infos fetched = .ok infos ↔ fetched = infos.map some := by
  intro fetched
  induction fetched with
  | nil =>
    intro infos
    constructor
    · intro h
      have : ([] : List ModuleInfo) = infos := Except.ok.inj h
      rw [← this]
      rfl
    · intro h
      cases infos with
      | nil => rfl
      | cons i rest => exact absurd h (by simp)
  | cons o rest ih =>
    intro infos
    cases o with
    | none =>
      constructor
      · intro h
        exact absurd h (by simp [update_block_infos])
      · intro h
        cases infos with
        | nil => exact absurd h (by simp)
        | cons i infos2 => exact absurd h (by simp)
    | some v =>
      show (update_block_infos rest).map (v :: ·) = .ok infos ↔ _
      constructor
      · intro h
        cases hr : update_block_infos rest with
        | error e =>
          rw [hr] at h
          exact absurd h (by simp [Except.map])
        | ok rest2 =>
          rw [hr] at h
          have hinf : v :: rest2 = infos := by
            simpa [Except.map] using h
          rw [← hinf]
          have := (ih rest2).1 hr
          rw [List.map_cons, ← this]
      · intro h
        cases infos with
        | nil => exact absurd h (by simp)
        | cons i infos2 =>
          rw [List.map_cons] at h
          have h1 : some v = some i := (List.cons.injEq .. ▸ h).1
          have h2 : rest = infos2.map some := (List.cons.injEq .. ▸ h).2
          have hv : v = i := Option.some.inj h1
          rw [(ih infos2).2 h2]
          simp [Except.map, hv]

theorem all_some_repr :
    ∀ l : List (Option ModuleInfo), (∀ o ∈ l, o ≠ none) →
      l = (l.filterMap id).map some := by
  intro l
  induction l with
  | nil => intro _; rfl
  | cons o rest ih =>
    intro h
    cases o with
    | none => exact absurd rfl (h none (List.mem_cons_self ..))
    | some v =>
      have htl := ih (fun o ho => h o (List.mem_cons_of_mem _ ho))
      show some v :: rest = ((some v :: rest).filterMap id).map some
      rw [List.filterMap_cons]
      show some v :: rest = (v :: rest.filterMap id).map some
      rw [List.map_cons, ← htl]

/-- C3 (amended): construction succeeds iff the first refresh found an entry
for every block (`info is not None`) and at least one span exists over the
whole range (`assert self.spans_by_priority`); it does **not** check that
every block has an ONLINE server or a covering span. -/
theorem claim_C3 (fetched : List (Option ModuleInfo)) :
    (∃ st, constructManager fetched = .ok st) ↔
      ((∀ o ∈ fetched, o ≠ none) ∧
        (compute_spans (fetched.filterMap id)).1 ≠ []) := by
  constructor
  · rintro ⟨st, hst⟩
    unfold constructManager at hst
    cases hu : update_block_infos fetched with
    | error e =>
      rw [hu] at hst
      exact absurd hst (by simp)
    | ok infos =>
      rw [hu] at hst
      dsimp only at hst
      have hf : fetched = infos.map some := (update_block_infos_ok_iff ..).1 hu
      have hfm : fetched.filterMap id = infos := by
        rw [hf, List.filterMap_map]
        show infos.filterMap some = infos
        exact List.filterMap_some infos
      by_cases h1 : (compute_spans infos).1 = []
      · rw [if_pos h1] at hst
        exact absurd hst (by simp)
      · refine ⟨?_, ?_⟩
        · intro o ho
          rw [hf] at ho
          obtain ⟨v, _, hvo⟩ := List.mem_map.1 ho
          rw [← hvo]
          simp
        · rw [hfm]
          exact h1
  · rintro ⟨hall, hsp⟩
    have hrep : fetched = (fetched.filterMap id).map some := all_some_repr fetched hall
    have hu : update_block_infos fetched = .ok (fetched.filterMap id) :=
      (update_block_infos_ok_iff ..).2 hrep
    have hne : ¬ (fetched.filterMap id).length = 0 := by
      intro h0
      have hnil : fetched.filterMap id = [] := List.length_eq_zero.1 h0
      rw [hnil] at hsp
      exact hsp rfl
    refine ⟨⟨fetched.filterMap id, (compute_spans (fetched.filterMap id)).1,
      (compute_spans (fetched.filterMap id)).2⟩, ?_⟩
    unfold constructManager
    rw [hu]
    dsimp only
    rw [if_neg hsp, if_neg hne]

/-- C3 — counterexample to the claim as stated: on `fetched3` block 1 has
zero ONLINE servers, yet construction succeeds (every block has a non-`None`
entry and block 0 contributes a span), and the resulting state covers block 1
with no span at all — the opposite of "fails with `NoServersForBlock`" and of
"every block index has at least one covering span". -/
theorem claim_C3_counterexample :
    (constructManager fetched3).map (fun st => st.spans_containing_block) =
      .ok [[⟨0, 1, 0⟩], []] ∧
    ((fetched3.getD 1 none).elim [] ModuleInfo.servers).filter
      (fun kv => decide (kv.2.state = ServerState.online)) = [] :=
  ⟨rfl, rfl⟩


/-! ## Claim C2 — RANDOM routing is coverage-correct and terminates -/

theorem makeSequenceRandom_zero (sbc : List (List RemoteSpanInfo)) (choice : Nat → Nat)
    (e current : Nat) :
    makeSequenceRandom sbc choice e 0 current =
      if current < e then .error "fuel exhausted" else .ok [] := by
  rfl

theorem makeSequenceRandom_step (sbc : List (List RemoteSpanInfo)) (choice : Nat → Nat)
    (e fuel current : Nat) :
    makeSequenceRandom sbc choice e (fuel + 1) current =
      if current < e then
        match sbc[current]? with
        | none => .error "IndexError: tuple index out of range"
        | some candidate_spans =>
          if candidate_spans.isEmpty then
            .error "IndexError: cannot choose from an empty sequence"
          else
            let chosen_span :=
              candidate_spans.getD (choice fuel % candidate_spans.length) ⟨0, 0, 0⟩
            if chosen_span.start ≤ current ∧ current < chosen_span.stop then
              match makeSequenceRandom sbc choice e fuel chosen_span.stop with
              | .ok seq => .ok (chosen_span :: seq)
              | .error err => .error err
            else .error "AssertionError"
      else .ok [] := by
  rfl

theorem spansContaining_length (infos : List ModuleInfo) :
    (compute_spans infos).2.length = infos.length := by
  show ((List.range infos.length).map _).length = _
  rw [List.length_map, List.length_range]

theorem spansContaining_get (infos : List ModuleInfo) (i : Nat) (hi : i < infos.length) :
    (compute_spans infos).2[i]? =
      some (((compute_spans infos).1).filter
        (fun s => decide (s.start ≤ i) && decide (i < s.stop))) := by
  show ((List.range infos.length).map _)[i]? = _
  rw [List.getElem?_map, List.getElem?_range hi]
  rfl

/-- The walk of the RANDOM branch: with every index of `[current, end_index)`
covered and fuel at least `end_index - current`, the walk returns a chained
span sequence drawn from `spans_by_priority`, for every choice oracle. -/
theorem makeSequenceRandom_spec (infos : List ModuleInfo) (choice : Nat → Nat)
    (end_index : Nat) (hend : end_index ≤ infos.length) :
    ∀ fuel current, end_index - current ≤ fuel →
      (∀ i, current ≤ i → i < end_index → (compute_spans infos).2.getD i [] ≠ []) →
      ∃ seq,
        makeSequenceRandom (compute_spans infos).2 choice end_index fuel current =
          .ok seq ∧
        chainFrom seq current end_index ∧
        ∀ sp ∈ seq, sp ∈ (compute_spans infos).1 := by
  intro fuel
  induction fuel with
  | zero =>
    intro current hf _
    have hle : end_index ≤ current := by omega
    refine ⟨[], ?_, hle, fun sp h => absurd h (List.not_mem_nil sp)⟩
    rw [makeSequenceRandom_zero, if_neg (not_lt.2 hle)]
  | succ f ih =>
    intro current hf hcov
    by_cases hlt : current < end_index
    · have hin : current < infos.length := by omega
      have hget := spansContaining_get infos current hin
      set L := ((compute_spans infos).1).filter
        (fun s => decide (s.start ≤ current) && decide (current < s.stop)) with hL
      have hgetD : (compute_spans infos).2.getD current [] = L := by
        rw [List.getD_eq_getElem?_getD, hget]
        rfl
      have hLne : L ≠ [] := by
        rw [← hgetD]
        exact hcov current (le_refl _) hlt
      have hLlen : 0 < L.length := List.length_pos.2 hLne
      have hidxlt : choice f % L.length < L.length := Nat.mod_lt _ hLlen
      have hc2 : L.getD (choice f % L.length) ⟨0, 0, 0⟩ = L[choice f % L.length] := by
        rw [List.getD_eq_getElem?_getD, List.getElem?_eq_getElem hidxlt]
        rfl
      have hchosenmem : L.getD (choice f % L.length) ⟨0, 0, 0⟩ ∈ L := by
        rw [hc2]
        exact List.getElem_mem ..
      have hmemfilter := List.mem_filter.1 hchosenmem
      have hpred : (L.getD (choice f % L.length) ⟨0, 0, 0⟩).start ≤ current ∧
          current < (L.getD (choice f % L.length) ⟨0, 0, 0⟩).stop := by
        have := hmemfilter.2
        simpa using this
      have hstoplt : current < (L.getD (choice f % L.length) ⟨0, 0, 0⟩).stop := hpred.2
      obtain ⟨seq, hrun, hchain, hmems⟩ :=
        ih (L.getD (choice f % L.length) ⟨0, 0, 0⟩).stop (by omega)
          (fun i hi1 hi2 => hcov i (by omega) hi2)
      refine ⟨L.getD (choice f % L.length) ⟨0, 0, 0⟩ :: seq, ?_,
        ⟨hlt, hpred.1, hpred.2, hchain⟩, ?_⟩
      · rw [makeSequenceRandom_step, if_pos hlt, hget]
        dsimp only
        have hLeb : ¬ L.isEmpty = true := by
          intro hc
          exact hLne (List.isEmpty_iff.1 hc)
        rw [if_neg hLeb, if_pos hpred, hrun]
      · intro sp hsp
        rcases List.mem_cons.1 hsp with heq | h2
        · rw [heq]
          exact (List.mem_filter.1 hchosenmem).1
        · exact hmems sp h2
    · refine ⟨[], ?_, (show end_index ≤ current by omega),
        fun sp h => absurd h (List.not_mem_nil sp)⟩
      rw [makeSequenceRandom_step, if_neg hlt]

/-- C2: in any manager state derived from a refresh over `infos`, if every
block in `[start_index, end_index)` is covered by at least one span of
`spans_containing_block`, the RANDOM branch of `make_sequence` terminates
(fuel `end_index - start_index` suffices) for every sequence of random
choices, never trips the source's assertion, and returns spans whose
concatenated ranges exactly cover `[start_index, end_index)`: the first
chosen span contains `start_index`, each subsequent span contains the
previous span's end, no chosen span starts past the current frontier and the
last span's end is at least `end_index` (`chainFrom`). -/
theorem claim_C2 (infos : List ModuleInfo) (start_index end_index : Nat)
    (choice : Nat → Nat) (fuel : Nat)
    (hend : end_index ≤ infos.length)
    (hcov : ∀ i, start_index ≤ i → i < end_index →
      (compute_spans infos).2.getD i [] ≠ [])
    (hfuel : end_index - start_index ≤ fuel) :
    ∃ seq,
      makeSequenceRandom (compute_spans infos).2 choice end_index fuel start_index =
        .ok seq ∧
      chainFrom seq start_index end_index ∧
      ∀ sp ∈ seq, sp ∈ (compute_spans infos).1 :=
  makeSequenceRandom_spec infos choice end_index hend fuel start_index hfuel hcov

/-- Witness for C2 on the spec's four-block example. -/
theorem claim_C2_witness :
    ∃ seq,
      makeSequenceRandom (compute_spans smExample).2 (fun _ => 0) 4 4 0 = .ok seq ∧
      chainFrom seq 0 4 ∧
      ∀ sp ∈ seq, sp ∈ (compute_spans smExample).1 :=
  claim_C2 smExample 0 4 (fun _ => 0) 4 (by decide)
    (by
      intro i _ hi
      interval_cases i <;> decide)
    (by decide)


/-! ## Claim C1 — `compute_spans` yields exactly the maximal ONLINE runs -/

theorem span_ext (s1 s2 : RemoteSpanInfo) (h1 : s1.start = s2.start)
    (h2 : s1.stop = s2.stop) (h3 : s1.peer_id = s2.peer_id) : s1 = s2 := by
  cases s1
  cases s2
  simp_all

theorem isOnlineAt_out (infos : List ModuleInfo) (p : PeerID) (i : Nat)
    (h : infos.length ≤ i) : isOnlineAt infos p i = false := by
  unfold isOnlineAt
  rw [List.getElem?_eq_none h]

theorem isOnlineAt_lt (infos : List ModuleInfo) (p : PeerID) (i : Nat)
    (h : isOnlineAt infos p i = true) : i < infos.length := by
  by_contra hc
  rw [isOnlineAt_out infos p i (by omega)] at h
  exact Bool.false_ne_true h

theorem leftMaxRun_unique (infos : List ModuleInfo) (p : PeerID) (a a2 b : Nat)
    (h1 : leftMaxRun infos p a b) (h2 : leftMaxRun infos p a2 b) : a = a2 := by
  obtain ⟨hab1, hon1, hcl1⟩ := h1
  obtain ⟨hab2, hon2, hcl2⟩ := h2
  by_contra hne
  rcases Nat.lt_or_ge a a2 with hlt | hge
  · have ha2pos : a2 ≠ 0 := by omega
    rcases hcl2 with hc | hc
    · exact ha2pos hc
    · have := hon1 (a2 - 1) (by omega) (by omega)
      rw [this] at hc
      exact Bool.noConfusion hc
  · have hlt : a2 < a := by omega
    have hapos : a ≠ 0 := by omega
    rcases hcl1 with hc | hc
    · exact hapos hc
    · have := hon2 (a - 1) (by omega) (by omega)
      rw [this] at hc
      exact Bool.noConfusion hc

theorem mem_keys_iff_lookupA {β : Type} (l : List (PeerID × β)) (p : PeerID) :
    p ∈ l.map Prod.fst ↔ lookupA l p ≠ none := by
  constructor
  · intro hmem hc
    exact (lookupA_eq_none l p).1 hc hmem
  · intro hne
    by_contra hmem
    exact hne ((lookupA_eq_none l p).2 hmem)

theorem lookupA_extendStop (l : List (PeerID × RemoteSpanInfo)) (p : PeerID)
    (i : Nat) (q : PeerID) :
    lookupA (l.map (fun kv =>
        if kv.1 = p then (kv.1, ⟨kv.2.start, i + 1, kv.2.peer_id⟩) else kv)) q =
      if p = q then
        (lookupA l q).map (fun v => ⟨v.start, i + 1, v.peer_id⟩)
      else lookupA l q := by
  induction l with
  | nil => by_cases h : p = q <;> simp [lookupA, h]
  | cons kv tl ih =>
    obtain ⟨a, w⟩ := kv
    show lookupA ((if a = p then (a, (⟨w.start, i + 1, w.peer_id⟩ : RemoteSpanInfo))
      else (a, w)) :: _) q = _
    by_cases hap : a = p
    · rw [if_pos hap, lookupA_cons, lookupA_cons]
      by_cases haq : a = q
      · rw [if_pos haq, if_pos haq, if_pos (hap ▸ haq : p = q)]
        rfl
      · rw [if_neg haq, if_neg haq, ih]
    · rw [if_neg hap, lookupA_cons, lookupA_cons]
      by_cases haq : a = q
      · rw [if_pos haq, if_pos haq, if_neg (fun hpq => hap (haq ▸ hpq.symm : a = p))]
      · rw [if_neg haq, if_neg haq, ih]

theorem keys_extendStop (l : List (PeerID × RemoteSpanInfo)) (p : PeerID) (i : Nat) :
    (l.map (fun kv =>
        if kv.1 = p then (kv.1, ⟨kv.2.start, i + 1, kv.2.peer_id⟩) else kv)).map Prod.fst =
      l.map Prod.fst := by
  induction l with
  | nil => rfl
  | cons kv tl ih =>
    by_cases h : kv.1 = p <;> simp [h, ih]

theorem lookupA_openOrExtend (active : List (PeerID × RemoteSpanInfo))
    (p : PeerID) (i : Nat) (q : PeerID) :
    lookupA (openOrExtend active p i) q =
      if p = q then
        (match lookupA active q with
          | some s => some ⟨s.start, i + 1, s.peer_id⟩
          | none => some ⟨i, i + 1, q⟩)
      else lookupA active q := by
  unfold openOrExtend
  cases hl : lookupA active p with
  | some s0 =>
    dsimp only
    rw [lookupA_extendStop]
    by_cases hpq : p = q
    · rw [if_pos hpq, if_pos hpq, ← hpq, hl]
      rfl
    · rw [if_neg hpq, if_neg hpq]
  | none =>
    dsimp only
    rw [lookupA_append]
    by_cases hpq : p = q
    · rw [if_pos hpq, lookupA_cons, if_pos hpq, ← hpq, hl]
      rfl
    · rw [if_neg hpq, lookupA_cons, if_neg hpq]
      show (lookupA active q).or (lookupA [] q) = _
      cases lookupA active q <;> rfl

theorem nodup_openOrExtend (active : List (PeerID × RemoteSpanInfo))
    (p : PeerID) (i : Nat) (hnd : NodupKeys active) :
    NodupKeys (openOrExtend active p i) := by
  unfold openOrExtend
  cases hl : lookupA active p with
  | some s0 =>
    dsimp only
    unfold NodupKeys
    rw [keys_extendStop]
    exact hnd
  | none =>
    dsimp only
    unfold NodupKeys
    rw [List.map_append]
    simp only [List.map_cons, List.map_nil]
    rw [List.nodup_append]
    refine ⟨hnd, List.nodup_singleton _, ?_⟩
    have : p ∉ active.map Prod.fst := (lookupA_eq_none active p).1 hl
    simpa using this

theorem onlineInServers_cons (a : PeerID) (w : ServerInfo)
    (tl : List (PeerID × ServerInfo)) (q : PeerID) :
    onlineInServers ((a, w) :: tl) q =
      if a = q then decide (w.state = ServerState.online) else onlineInServers tl q := by
  unfold onlineInServers
  rw [lookupA_cons]
  by_cases h : a = q
  · rw [if_pos h, if_pos h]
  · rw [if_neg h, if_neg h]

/-- One block's server loop: an ONLINE peer's span is opened at this block or
extended to `i + 1` (keeping `start` and the recorded `peer_id`); everyone
else's entry is untouched. -/
theorem smStepServers_lookup (i : Nat) :
    ∀ (servers : List (PeerID × ServerInfo)) (active : List (PeerID × RemoteSpanInfo)),
      NodupKeys servers → NodupKeys active →
      (∀ q, lookupA (smStepServers i servers active) q =
        (if onlineInServers servers q then
          match lookupA active q with
          | some s => some ⟨s.start, i + 1, s.peer_id⟩
          | none => some ⟨i, i + 1, q⟩
        else lookupA active q)) ∧
      NodupKeys (smStepServers i servers active) := by
  intro servers
  induction servers with
  | nil =>
    intro active _ hnda
    refine ⟨fun q => ?_, hnda⟩
    show lookupA active q = _
    have h0 : onlineInServers [] q = false := rfl
    rw [h0]
    simp
  | cons kv tl ih =>
    intro active hnds hnda
    obtain ⟨a, w⟩ := kv
    have hcons := hnds
    unfold NodupKeys at hcons
    simp only [List.map_cons] at hcons
    have hnotin := (List.nodup_cons.1 hcons).1
    have hndtl : NodupKeys tl := (List.nodup_cons.1 hcons).2
    by_cases hon : w.state = ServerState.online
    · have hstep : smStepServers i ((a, w) :: tl) active =
          smStepServers i tl (openOrExtend active a i) := by
        unfold smStepServers
        rw [List.foldl_cons]
        congr 1
        simp [hon]
      rw [hstep]
      obtain ⟨hlook, hnd2⟩ := ih (openOrExtend active a i) hndtl
        (nodup_openOrExtend active a i hnda)
      refine ⟨fun q => ?_, hnd2⟩
      rw [hlook q, onlineInServers_cons, lookupA_openOrExtend]
      by_cases haq : a = q
      · subst haq
        have hlq : lookupA tl a = none := by
          rw [lookupA_eq_none]
          exact hnotin
        have honq : onlineInServers tl a = false := by
          unfold onlineInServers
          rw [hlq]
        rw [honq]
        simp [hon]
      · rw [if_neg haq, if_neg haq]
    · have hstep : smStepServers i ((a, w) :: tl) active = smStepServers i tl active := by
        unfold smStepServers
        rw [List.foldl_cons]
        congr 1
        simp [hon]
      rw [hstep]
      obtain ⟨hlook, hnd2⟩ := ih active hndtl hnda
      refine ⟨fun q => ?_, hnd2⟩
      rw [hlook q, onlineInServers_cons]
      by_cases haq : a = q
      · subst haq
        have hlq : lookupA tl a = none := by
          rw [lookupA_eq_none]
          exact hnotin
        have honq : onlineInServers tl a = false := by
          unfold onlineInServers
          rw [hlq]
        rw [honq]
        simp [hon]
      · rw [if_neg haq]

/-- The close condition equals "not ONLINE at this block, or last block". -/
theorem closeCond_eq (servers : List (PeerID × ServerInfo)) (isLast : Bool) (q : PeerID) :
    closeCond servers isLast q = (!onlineInServers servers q || isLast) := by
  unfold closeCond onlineInServers
  cases lookupA servers q with
  | none => rfl
  | some s =>
    by_cases h : s.state = ServerState.online
    · simp [h]
    · simp [h]

/-- Distinct keys of the active dict mean distinct recorded `peer_id`s of the
values, since every value records its own key. -/
theorem pairwise_val_ne (l : List (PeerID × RemoteSpanInfo)) (hnd : NodupKeys l)
    (hpeer : ∀ kv ∈ l, kv.2.peer_id = kv.1) :
    List.Pairwise (fun v1 v2 : RemoteSpanInfo => v1.peer_id ≠ v2.peer_id)
      (l.map Prod.snd) := by
  rw [List.pairwise_map]
  have hnd2 : List.Pairwise (fun a b : PeerID => a ≠ b) (l.map Prod.fst) := hnd
  have hp : List.Pairwise (fun kv1 kv2 : PeerID × RemoteSpanInfo => kv1.1 ≠ kv2.1) l :=
    List.pairwise_map.1 hnd2
  refine hp.imp_of_mem ?_
  intro a b ha hb hne
  rw [hpeer a ha, hpeer b hb]
  exact hne

/-- After the server loop of block `k`, every active entry is either a span of
a peer ONLINE at `k` (extended or opened, ending at `k + 1`) or the untouched
entry of a peer not ONLINE at `k` (still ending at `k`). -/
theorem act1_facts (infos : List ModuleInfo) (k : Nat) (info : ModuleInfo)
    (hinfo : infos[k]? = some info)
    (active : List (PeerID × RemoteSpanInfo))
    (hA1 : ∀ kv ∈ active, kv.2.peer_id = kv.1 ∧ kv.2.stop = k ∧
      leftMaxRun infos kv.1 kv.2.start k)
    (hA2 : NodupKeys active)
    (hA3 : ∀ p, 0 < k → isOnlineAt infos p (k - 1) = true → p ∈ active.map Prod.fst)
    (hsrvk : NodupKeys info.servers) :
    ∀ kv ∈ smStepServers k info.servers active,
      kv.2.peer_id = kv.1 ∧
      ((isOnlineAt infos kv.1 k = true ∧ kv.2.stop = k + 1 ∧
          leftMaxRun infos kv.1 kv.2.start (k + 1)) ∨
       (isOnlineAt infos kv.1 k = false ∧ kv.2.stop = k ∧
          leftMaxRun infos kv.1 kv.2.start k ∧ (kv.1, kv.2) ∈ active)) := by
  obtain ⟨hF1, hF2⟩ := smStepServers_lookup k info.servers active hsrvk hA2
  intro kv hkv
  obtain ⟨q, v⟩ := kv
  have honkq : isOnlineAt infos q k = onlineInServers info.servers q := by
    unfold isOnlineAt
    rw [hinfo]
  show v.peer_id = q ∧
    ((isOnlineAt infos q k = true ∧ v.stop = k + 1 ∧
        leftMaxRun infos q v.start (k + 1)) ∨
     (isOnlineAt infos q k = false ∧ v.stop = k ∧
        leftMaxRun infos q v.start k ∧ (q, v) ∈ active))
  have hlq : lookupA (smStepServers k info.servers active) q = some v :=
    lookupA_of_mem hF2 hkv
  rw [hF1 q] at hlq
  by_cases hon : onlineInServers info.servers q = true
  · rw [if_pos hon] at hlq
    cases hl : lookupA active q with
    | some v0 =>
      rw [hl] at hlq
      dsimp only at hlq
      have hv : v = ⟨v0.start, k + 1, v0.peer_id⟩ := (Option.some_inj.1 hlq).symm
      have hmem0 : (q, v0) ∈ active := mem_of_lookupA hl
      obtain ⟨hp0, hs0, hrun0⟩ := hA1 (q, v0) hmem0
      obtain ⟨hab0, honr0, hcl0⟩ := hrun0
      have hab0n : v0.start < k := hab0
      have hrun1 : leftMaxRun infos q v0.start (k + 1) := by
        refine ⟨by omega, ?_, hcl0⟩
        intro m hm1 hm2
        by_cases hmk : m < k
        · exact honr0 m hm1 hmk
        · have hmx : m = k := by omega
          rw [hmx, honkq]
          exact hon
      have hvstart : v.start = v0.start := by rw [hv]
      have hvstop : v.stop = k + 1 := by rw [hv]
      have hvpeer : v.peer_id = v0.peer_id := by rw [hv]
      refine ⟨?_, Or.inl ⟨by rw [honkq]; exact hon, hvstop, ?_⟩⟩
      · rw [hvpeer]
        exact hp0
      · rw [hvstart]
        exact hrun1
    | none =>
      rw [hl] at hlq
      dsimp only at hlq
      have hv : v = ⟨k, k + 1, q⟩ := (Option.some_inj.1 hlq).symm
      have hvstart : v.start = k := by rw [hv]
      have hvstop : v.stop = k + 1 := by rw [hv]
      have hvpeer : v.peer_id = q := by rw [hv]
      refine ⟨hvpeer, Or.inl ⟨by rw [honkq]; exact hon, hvstop, ?_⟩⟩
      rw [hvstart]
      refine ⟨Nat.lt_succ_self k, ?_, ?_⟩
      · intro m hm1 hm2
        have hmx : m = k := by omega
        rw [hmx, honkq]
        exact hon
      · by_cases hk0 : k = 0
        · exact Or.inl hk0
        · right
          cases hx : isOnlineAt infos q (k - 1) with
          | false => rfl
          | true =>
            have hkey := hA3 q (by omega) hx
            rw [mem_keys_iff_lookupA] at hkey
            exact absurd hl hkey
  · rw [if_neg hon] at hlq
    have hmem0 : (q, v) ∈ active := mem_of_lookupA hlq
    obtain ⟨hp0, hs0, hrun0⟩ := hA1 (q, v) hmem0
    have hoff : isOnlineAt infos q k = false := by
      rw [honkq]
      cases hx : onlineInServers info.servers q with
      | false => rfl
      | true => exact absurd hx hon
    exact ⟨hp0, Or.inr ⟨hoff, hs0, hrun0, hmem0⟩⟩

/-- Every peer ONLINE at block `k` has an active entry after the server loop
of block `k`. -/
theorem act1_keys (infos : List ModuleInfo) (k : Nat) (info : ModuleInfo)
    (hinfo : infos[k]? = some info)
    (active : List (PeerID × RemoteSpanInfo))
    (hA2 : NodupKeys active)
    (hsrvk : NodupKeys info.servers) :
    ∀ p, isOnlineAt infos p k = true →
      p ∈ (smStepServers k info.servers active).map Prod.fst := by
  obtain ⟨hF1, _⟩ := smStepServers_lookup k info.servers active hsrvk hA2
  intro p hp
  have honkq : isOnlineAt infos p k = onlineInServers info.servers p := by
    unfold isOnlineAt
    rw [hinfo]
  rw [honkq] at hp
  rw [mem_keys_iff_lookupA, hF1 p, if_pos hp]
  cases lookupA active p <;> simp

/-- Spans closed before block `k` stay strictly left of every active entry
after the server loop of block `k`. -/
theorem act1_cross (infos : List ModuleInfo) (k : Nat) (info : ModuleInfo)
    (closed : List RemoteSpanInfo)
    (active : List (PeerID × RemoteSpanInfo))
    (hA2 : NodupKeys active)
    (hA4 : ∀ s : RemoteSpanInfo, s ∈ closed ↔
      (maxOnlineRun infos s.peer_id s.start s.stop ∧ s.stop < k))
    (hA6 : ∀ s ∈ closed, ∀ kv ∈ active, s.peer_id = kv.1 → s.stop < kv.2.start)
    (hsrvk : NodupKeys info.servers) :
    ∀ s ∈ closed, ∀ kv ∈ smStepServers k info.servers active,
      s.peer_id = kv.1 → s.stop < kv.2.start := by
  obtain ⟨hF1, hF2⟩ := smStepServers_lookup k info.servers active hsrvk hA2
  intro s hs kv hkv hpeer
  obtain ⟨q, v⟩ := kv
  show s.stop < v.start
  have hlq : lookupA (smStepServers k info.servers active) q = some v :=
    lookupA_of_mem hF2 hkv
  rw [hF1 q] at hlq
  by_cases hon : onlineInServers info.servers q = true
  · rw [if_pos hon] at hlq
    cases hl : lookupA active q with
    | some v0 =>
      rw [hl] at hlq
      dsimp only at hlq
      have hv : v = ⟨v0.start, k + 1, v0.peer_id⟩ := (Option.some_inj.1 hlq).symm
      have hvstart : v.start = v0.start := by rw [hv]
      rw [hvstart]
      exact hA6 s hs (q, v0) (mem_of_lookupA hl) hpeer
    | none =>
      rw [hl] at hlq
      dsimp only at hlq
      have hv : v = ⟨k, k + 1, q⟩ := (Option.some_inj.1 hlq).symm
      have hvstart : v.start = k := by rw [hv]
      rw [hvstart]
      exact ((hA4 s).1 hs).2
  · rw [if_neg hon] at hlq
    exact hA6 s hs (q, v) (mem_of_lookupA hlq) hpeer

/-- Every block where a peer is ONLINE lies inside some maximal ONLINE run of
that peer. -/
theorem exists_maxOnlineRun (infos : List ModuleInfo) (p : PeerID) :
    ∀ i, isOnlineAt infos p i = true →
      ∃ a b, maxOnlineRun infos p a b ∧ a ≤ i ∧ i < b := by
  intro i
  induction i using Nat.strong_induction_on with
  | _ i ih =>
    intro h
    by_cases hprev : 0 < i ∧ isOnlineAt infos p (i - 1) = true
    · obtain ⟨a, b, hmax, ha, hb⟩ := ih (i - 1) (by omega) hprev.2
      rcases Nat.lt_or_ge i b with hib | hib
      · exact ⟨a, b, hmax, by omega, hib⟩
      · have hbi : b = i := by omega
        have hcontra := hmax.2
        rw [hbi, h] at hcontra
        exact Bool.noConfusion hcontra
    · have hP : ∃ j, i < j ∧ isOnlineAt infos p j = false := by
        refine ⟨infos.length + i + 1, by omega, ?_⟩
        exact isOnlineAt_out infos p _ (by omega)
      have hfind := Nat.find_spec hP
      refine ⟨i, Nat.find hP, ⟨⟨hfind.1, ?_, ?_⟩, hfind.2⟩, Nat.le_refl i, hfind.1⟩
      · intro m hm1 hm2
        by_cases hmi : m = i
        · rw [hmi]
          exact h
        · have hmlt : i < m := by omega
          by_contra hc
          rw [Bool.not_eq_true] at hc
          exact (Nat.find_min hP hm2) ⟨hmlt, hc⟩
      · by_cases hi0 : i = 0
        · exact Or.inl hi0
        · right
          cases hx : isOnlineAt infos p (i - 1) with
          | false => rfl
          | true => exact absurd ⟨by omega, hx⟩ hprev

/-- The scan invariant holds at block 0 with both accumulators empty. -/
theorem smInv_zero (infos : List ModuleInfo) : smInv infos 0 [] [] := by
  refine ⟨?_, ?_, ?_, ?_, List.Pairwise.nil, ?_⟩
  · intro kv hkv
    exact absurd hkv (List.not_mem_nil kv)
  · exact List.nodup_nil
  · intro p h
    exact absurd h (by omega)
  · intro s
    constructor
    · intro hs
      exact absurd hs (List.not_mem_nil s)
    · rintro ⟨_, hlt⟩
      exact absurd hlt (by omega)
  · intro s hs
    exact absurd hs (List.not_mem_nil s)

/-- The key induction: from any state satisfying the scan invariant at block
`k` with at least one block left, the scan closes exactly the maximal ONLINE
runs, with same-peer spans appearing left to right, and ends with an empty
active dict (the source's `assert not active_spans`). -/
theorem smScan_spec (infos : List ModuleInfo)
    (hsrv : ∀ info ∈ infos, NodupKeys info.servers) :
    ∀ (rest : List ModuleInfo) (k : Nat) (closed : List RemoteSpanInfo)
      (active : List (PeerID × RemoteSpanInfo)),
      infos.drop k = rest → rest ≠ [] → smInv infos k closed active →
      (∀ s : RemoteSpanInfo,
        s ∈ (smScan infos.length k rest (closed, active)).1 ↔
          maxOnlineRun infos s.peer_id s.start s.stop) ∧
      List.Pairwise
        (fun s1 s2 : RemoteSpanInfo => s1.peer_id = s2.peer_id → s1.stop < s2.start)
        (smScan infos.length k rest (closed, active)).1 ∧
      (smScan infos.length k rest (closed, active)).2 = [] := by
  intro rest
  induction rest with
  | nil =>
    intro k closed active _ hne _
    exact absurd rfl hne
  | cons info rest2 ih =>
    intro k closed active hdrop _ hinv
    obtain ⟨hA1, hA2, hA3, hA4, hA5, hA6⟩ := hinv
    have hkn : k < infos.length := by
      by_contra hc
      have hnil : infos.drop k = [] := List.drop_eq_nil_of_le (by omega)
      rw [hdrop] at hnil
      exact List.noConfusion hnil
    have hinfo : infos[k]? = some info := by
      have h1 : (infos.drop k)[0]? = some info := by
        rw [hdrop]
        simp
      rw [List.getElem?_drop] at h1
      simpa using h1
    have hdrop2 : infos.drop (k + 1) = rest2 := by
      have h2 : infos.drop (k + 1) = (infos.drop k).drop 1 := by
        rw [List.drop_drop]
      rw [h2, hdrop]
      rfl
    have hmemi : info ∈ infos := by
      obtain ⟨hlt, hget⟩ := List.getElem?_eq_some.1 hinfo
      rw [← hget]
      exact List.getElem_mem hlt
    have hsrvk : NodupKeys info.servers := hsrv info hmemi
    have honk : ∀ q, isOnlineAt infos q k = onlineInServers info.servers q := by
      intro q
      unfold isOnlineAt
      rw [hinfo]
    obtain ⟨hF1, hF2⟩ := smStepServers_lookup k info.servers active hsrvk hA2
    have hG := act1_facts infos k info hinfo active hA1 hA2 hA3 hsrvk
    have hH := act1_keys infos k info hinfo active hA2 hsrvk
    have hX := act1_cross infos k info closed active hA2 hA4 hA6 hsrvk
    set act1 := smStepServers k info.servers active with hact1
    by_cases hlast : k = infos.length - 1
    · -- final block: every active span is closed
      have hn : infos.length = k + 1 := by omega
      have hrest2 : rest2 = [] := by
        rw [← hdrop2]
        exact List.drop_eq_nil_of_le (by omega)
      subst hrest2
      have hdec : decide (k = infos.length - 1) = true := decide_eq_true hlast
      have hclosetrue : ∀ kv : PeerID × RemoteSpanInfo,
          closeCond info.servers (decide (k = infos.length - 1)) kv.1 = true := by
        intro kv
        rw [closeCond_eq, hdec, Bool.or_true]
      have hsplit : smStepBlock infos.length (closed, active) k info =
          (closed ++ act1.map Prod.snd, []) := by
        show (closed ++ (act1.filter (fun kv =>
            closeCond info.servers (decide (k = infos.length - 1)) kv.1)).map Prod.snd,
          act1.filter (fun kv =>
            !closeCond info.servers (decide (k = infos.length - 1)) kv.1)) =
          (closed ++ act1.map Prod.snd, [])
        rw [List.filter_eq_self.2 (fun kv _ => hclosetrue kv),
          List.filter_eq_nil_iff.2 (fun kv _ => by rw [hclosetrue kv]; simp)]
      have hstep1 : smScan infos.length k [info] (closed, active) =
          smStepBlock infos.length (closed, active) k info := rfl
      rw [hstep1, hsplit]
      refine ⟨?_, ?_, rfl⟩
      · intro s
        show s ∈ closed ++ act1.map Prod.snd ↔
          maxOnlineRun infos s.peer_id s.start s.stop
        rw [List.mem_append]
        constructor
        · rintro (hs | hs)
          · exact ((hA4 s).1 hs).1
          · obtain ⟨kv, hkv, hvs⟩ := List.mem_map.1 hs
            obtain ⟨hp, hor⟩ := hG kv hkv
            rw [← hvs, hp]
            rcases hor with ⟨_, hstop, hrun⟩ | ⟨hoff, hstop, hrun, _⟩
            · rw [hstop]
              exact ⟨hrun, isOnlineAt_out infos kv.1 (k + 1) (by omega)⟩
            · rw [hstop]
              exact ⟨hrun, hoff⟩
        · intro hmax
          obtain ⟨⟨hab, honr, hcl⟩, hright⟩ := hmax
          have hblen : s.stop ≤ infos.length := by
            have h1 := honr (s.stop - 1) (by omega) (by omega)
            have h2 := isOnlineAt_lt infos s.peer_id (s.stop - 1) h1
            omega
          rcases Nat.lt_or_ge s.stop k with hsk | hsk
          · exact Or.inl ((hA4 s).2 ⟨⟨⟨hab, honr, hcl⟩, hright⟩, hsk⟩)
          · rcases Nat.eq_or_lt_of_le hsk with hek | hgt
            · -- the run ends exactly at k: it is still sitting in the dict,
              -- untouched by block k
              have hstopk : s.stop = k := hek.symm
              have hk0 : 0 < k := by omega
              have hon1 : isOnlineAt infos s.peer_id (k - 1) = true :=
                honr (k - 1) (by omega) (by omega)
              have hkey := hA3 s.peer_id hk0 hon1
              rw [mem_keys_iff_lookupA] at hkey
              cases hl : lookupA active s.peer_id with
              | none => exact absurd hl hkey
              | some v =>
                have hmemv : (s.peer_id, v) ∈ active := mem_of_lookupA hl
                obtain ⟨hvp, hvs, hvrun⟩ := hA1 (s.peer_id, v) hmemv
                have hsrun : leftMaxRun infos s.peer_id s.start k := by
                  rw [← hstopk]
                  exact ⟨hab, honr, hcl⟩
                have hvstart : v.start = s.start :=
                  leftMaxRun_unique infos s.peer_id v.start s.start k hvrun hsrun
                have hoffk : isOnlineAt infos s.peer_id k = false := by
                  rw [← hstopk]
                  exact hright
                have hoffT : ¬ onlineInServers info.servers s.peer_id = true := by
                  rw [← honk s.peer_id, hoffk]
                  simp
                have hlq : lookupA act1 s.peer_id = some v := by
                  rw [hF1 s.peer_id, if_neg hoffT]
                  exact hl
                have hmem1 : (s.peer_id, v) ∈ act1 := mem_of_lookupA hlq
                right
                rw [List.mem_map]
                refine ⟨(s.peer_id, v), hmem1, ?_⟩
                exact span_ext v s hvstart (by rw [hvs, hstopk]) hvp
            · -- the run reaches the final block: its extended span ends at k+1
              have hstopk1 : s.stop = k + 1 := by omega
              have honkk : isOnlineAt infos s.peer_id k = true :=
                honr k (by omega) (by omega)
              have honT : onlineInServers info.servers s.peer_id = true := by
                rw [← honk s.peer_id]
                exact honkk
              right
              rw [List.mem_map]
              cases hl : lookupA active s.peer_id with
              | some v =>
                have hmemv : (s.peer_id, v) ∈ active := mem_of_lookupA hl
                obtain ⟨hvp, hvs, hvrun⟩ := hA1 (s.peer_id, v) hmemv
                have hlq : lookupA act1 s.peer_id =
                    some ⟨v.start, k + 1, v.peer_id⟩ := by
                  rw [hF1 s.peer_id, if_pos honT, hl]
                have hmem1 :
                    (s.peer_id, (⟨v.start, k + 1, v.peer_id⟩ : RemoteSpanInfo)) ∈ act1 :=
                  mem_of_lookupA hlq
                obtain ⟨hab2, honr2, hcl2⟩ := hvrun
                have hab2n : v.start < k := hab2
                have hvrun2 : leftMaxRun infos s.peer_id v.start (k + 1) := by
                  refine ⟨by omega, ?_, hcl2⟩
                  intro m hm1 hm2
                  by_cases hmk : m < k
                  · exact honr2 m hm1 hmk
                  · have hmx : m = k := by omega
                    rw [hmx]
                    exact honkk
                have hsrun : leftMaxRun infos s.peer_id s.start (k + 1) := by
                  rw [← hstopk1]
                  exact ⟨hab, honr, hcl⟩
                have hvstart : v.start = s.start :=
                  leftMaxRun_unique infos s.peer_id v.start s.start (k + 1) hvrun2 hsrun
                refine ⟨(s.peer_id, (⟨v.start, k + 1, v.peer_id⟩ : RemoteSpanInfo)),
                  hmem1, ?_⟩
                exact span_ext _ s hvstart (by rw [hstopk1]) hvp
              | none =>
                have hsstart : s.start = k := by
                  by_contra hne
                  have honp : isOnlineAt infos s.peer_id (k - 1) = true := by
                    apply honr
                    · omega
                    · omega
                  have hkey := hA3 s.peer_id (by omega) honp
                  rw [mem_keys_iff_lookupA] at hkey
                  exact hkey hl
                have hlq : lookupA act1 s.peer_id = some ⟨k, k + 1, s.peer_id⟩ := by
                  rw [hF1 s.peer_id, if_pos honT, hl]
                have hmem1 :
                    (s.peer_id, (⟨k, k + 1, s.peer_id⟩ : RemoteSpanInfo)) ∈ act1 :=
                  mem_of_lookupA hlq
                refine ⟨(s.peer_id, (⟨k, k + 1, s.peer_id⟩ : RemoteSpanInfo)),
                  hmem1, ?_⟩
                exact span_ext _ s (by rw [hsstart]) (by rw [hstopk1]) rfl
      · show List.Pairwise
          (fun s1 s2 : RemoteSpanInfo => s1.peer_id = s2.peer_id → s1.stop < s2.start)
          (closed ++ act1.map Prod.snd)
        rw [List.pairwise_append]
        refine ⟨hA5, ?_, ?_⟩
        · have hne := pairwise_val_ne act1 hF2 (fun kv hkv => (hG kv hkv).1)
          exact hne.imp (fun h heq => absurd heq h)
        · intro a ha b hb hpeer
          obtain ⟨kv, hkv, hvb⟩ := List.mem_map.1 hb
          have hpk : a.peer_id = kv.1 := by
            rw [hpeer, ← hvb]
            exact (hG kv hkv).1
          have hlt := hX a ha kv hkv hpk
          rw [← hvb]
          exact hlt
    · -- not the final block: close exactly the spans of peers not ONLINE here
      have hdec : decide (k = infos.length - 1) = false := decide_eq_false hlast
      have hclose : ∀ kv : PeerID × RemoteSpanInfo,
          closeCond info.servers (decide (k = infos.length - 1)) kv.1 =
            !onlineInServers info.servers kv.1 := by
        intro kv
        rw [closeCond_eq, hdec, Bool.or_false]
      have hsplit : smStepBlock infos.length (closed, active) k info =
          (closed ++
            (act1.filter (fun kv => !onlineInServers info.servers kv.1)).map Prod.snd,
           act1.filter (fun kv => onlineInServers info.servers kv.1)) := by
        show (closed ++ (act1.filter (fun kv =>
            closeCond info.servers (decide (k = infos.length - 1)) kv.1)).map Prod.snd,
          act1.filter (fun kv =>
            !closeCond info.servers (decide (k = infos.length - 1)) kv.1)) = _
        have e1 : act1.filter (fun kv =>
            closeCond info.servers (decide (k = infos.length - 1)) kv.1) =
            act1.filter (fun kv => !onlineInServers info.servers kv.1) :=
          List.filter_congr (fun kv _ => hclose kv)
        have e2 : act1.filter (fun kv =>
            !closeCond info.servers (decide (k = infos.length - 1)) kv.1) =
            act1.filter (fun kv => onlineInServers info.servers kv.1) :=
          List.filter_congr (fun kv _ => by
            show (!closeCond info.servers (decide (k = infos.length - 1)) kv.1) =
              onlineInServers info.servers kv.1
            rw [hclose kv, Bool.not_not])
        rw [e1, e2]
      set closed1 := closed ++
        (act1.filter (fun kv => !onlineInServers info.servers kv.1)).map Prod.snd
        with hclosed1
      set active2 := act1.filter (fun kv => onlineInServers info.servers kv.1)
        with hactive2
      have hrest2ne : rest2 ≠ [] := by
        intro hc
        rw [hc] at hdrop2
        have hlen := congrArg List.length hdrop2
        rw [List.length_drop] at hlen
        simp at hlen
        omega
      have hB1 : ∀ kv ∈ active2, kv.2.peer_id = kv.1 ∧ kv.2.stop = k + 1 ∧
          leftMaxRun infos kv.1 kv.2.start (k + 1) := by
        intro kv hkv
        rw [hactive2, List.mem_filter] at hkv
        obtain ⟨hkv1, hkv2⟩ := hkv
        obtain ⟨hp, hor⟩ := hG kv hkv1
        rcases hor with ⟨_, hstop, hrun⟩ | ⟨hoff, _, _, _⟩
        · exact ⟨hp, hstop, hrun⟩
        · rw [honk kv.1] at hoff
          rw [hoff] at hkv2
          exact Bool.noConfusion hkv2
      have hB2 : NodupKeys active2 := by
        rw [hactive2]
        exact List.Nodup.sublist
          (List.Sublist.map Prod.fst (List.filter_sublist act1)) hF2
      have hB3 : ∀ p, 0 < k + 1 → isOnlineAt infos p (k + 1 - 1) = true →
          p ∈ active2.map Prod.fst := by
        intro p _ hon
        have hon2 : isOnlineAt infos p k = true := hon
        have hkey := hH p hon2
        rw [List.mem_map] at hkey
        obtain ⟨kv, hkv, hkvp⟩ := hkey
        rw [hactive2, List.mem_map]
        refine ⟨kv, List.mem_filter.2 ⟨hkv, ?_⟩, hkvp⟩
        show onlineInServers info.servers kv.1 = true
        rw [hkvp, ← honk p]
        exact hon2
      have hB4 : ∀ s : RemoteSpanInfo, s ∈ closed1 ↔
          (maxOnlineRun infos s.peer_id s.start s.stop ∧ s.stop < k + 1) := by
        intro s
        rw [hclosed1, List.mem_append]
        constructor
        · rintro (hs | hs)
          · obtain ⟨hmax, hlt⟩ := (hA4 s).1 hs
            exact ⟨hmax, by omega⟩
          · rw [List.mem_map] at hs
            obtain ⟨kv, hkv, hvs⟩ := hs
            rw [List.mem_filter] at hkv
            obtain ⟨hkv1, hkv2⟩ := hkv
            obtain ⟨hp, hor⟩ := hG kv hkv1
            rcases hor with ⟨hon, _, _⟩ | ⟨hoff, hstop, hrun, _⟩
            · rw [honk kv.1] at hon
              rw [hon] at hkv2
              exact Bool.noConfusion hkv2
            · rw [← hvs, hp, hstop]
              exact ⟨⟨hrun, hoff⟩, by omega⟩
        · rintro ⟨hmax, hlt⟩
          obtain ⟨⟨hab, honr, hcl⟩, hright⟩ := hmax
          rcases Nat.lt_or_ge s.stop k with hsk | hsk
          · exact Or.inl ((hA4 s).2 ⟨⟨⟨hab, honr, hcl⟩, hright⟩, hsk⟩)
          · have hstopk : s.stop = k := by omega
            have hk0 : 0 < k := by omega
            have hon1 : isOnlineAt infos s.peer_id (k - 1) = true :=
              honr (k - 1) (by omega) (by omega)
            have hkey := hA3 s.peer_id hk0 hon1
            rw [mem_keys_iff_lookupA] at hkey
            cases hl : lookupA active s.peer_id with
            | none => exact absurd hl hkey
            | some v =>
              have hmemv : (s.peer_id, v) ∈ active := mem_of_lookupA hl
              obtain ⟨hvp, hvs, hvrun⟩ := hA1 (s.peer_id, v) hmemv
              have hsrun : leftMaxRun infos s.peer_id s.start k := by
                rw [← hstopk]
                exact ⟨hab, honr, hcl⟩
              have hvstart : v.start = s.start :=
                leftMaxRun_unique infos s.peer_id v.start s.start k hvrun hsrun
              have hoffk : isOnlineAt infos s.peer_id k = false := by
                rw [← hstopk]
                exact hright
              have hoffT : ¬ onlineInServers info.servers s.peer_id = true := by
                rw [← honk s.peer_id, hoffk]
                simp
              have hlq : lookupA act1 s.peer_id = some v := by
                rw [hF1 s.peer_id, if_neg hoffT]
                exact hl
              have hmem1 : (s.peer_id, v) ∈ act1 := mem_of_lookupA hlq
              right
              rw [List.mem_map]
              refine ⟨(s.peer_id, v), List.mem_filter.2 ⟨hmem1, ?_⟩, ?_⟩
              · show (!onlineInServers info.servers s.peer_id) = true
                rw [← honk s.peer_id, hoffk]
                rfl
              · exact span_ext v s hvstart (by rw [hvs, hstopk]) hvp
      have hB5 : List.Pairwise
          (fun s1 s2 : RemoteSpanInfo => s1.peer_id = s2.peer_id → s1.stop < s2.start)
          closed1 := by
        rw [hclosed1, List.pairwise_append]
        refine ⟨hA5, ?_, ?_⟩
        · have hne := pairwise_val_ne act1 hF2 (fun kv hkv => (hG kv hkv).1)
          have hsub : ((act1.filter
                (fun kv => !onlineInServers info.servers kv.1)).map Prod.snd).Sublist
              (act1.map Prod.snd) :=
            List.Sublist.map Prod.snd (List.filter_sublist act1)
          exact (List.Pairwise.sublist hsub hne).imp (fun h heq => absurd heq h)
        · intro a ha b hb hpeer
          rw [List.mem_map] at hb
          obtain ⟨kv, hkv, hvb⟩ := hb
          rw [List.mem_filter] at hkv
          have hpk : a.peer_id = kv.1 := by
            rw [hpeer, ← hvb]
            exact (hG kv hkv.1).1
          have hlt := hX a ha kv hkv.1 hpk
          rw [← hvb]
          exact hlt
      have hB6 : ∀ s ∈ closed1, ∀ kv ∈ active2,
          s.peer_id = kv.1 → s.stop < kv.2.start := by
        intro s hs kv hkv hpeer
        rw [hactive2, List.mem_filter] at hkv
        obtain ⟨hkv1, hkvon⟩ := hkv
        rw [hclosed1, List.mem_append] at hs
        rcases hs with hs | hs
        · exact hX s hs kv hkv1 hpeer
        · rw [List.mem_map] at hs
          obtain ⟨kv0, hkv0, hvs⟩ := hs
          rw [List.mem_filter] at hkv0
          obtain ⟨hkv01, hkv0off⟩ := hkv0
          have hkeys : kv0.1 = kv.1 := by
            rw [← hpeer, ← hvs]
            exact ((hG kv0 hkv01).1).symm
          have hl0 : lookupA act1 kv0.1 = some kv0.2 := lookupA_of_mem hF2 hkv01
          have hl1 : lookupA act1 kv.1 = some kv.2 := lookupA_of_mem hF2 hkv1
          rw [hkeys, hl1] at hl0
          exfalso
          have hoff : (!onlineInServers info.servers kv0.1) = true := hkv0off
          rw [hkeys] at hoff
          rw [hkvon] at hoff
          exact Bool.noConfusion hoff
      have hstep1 : smScan infos.length k (info :: rest2) (closed, active) =
          smScan infos.length (k + 1) rest2
            (smStepBlock infos.length (closed, active) k info) := rfl
      rw [hstep1, hsplit]
      exact ih (k + 1) closed1 active2 hdrop2 hrest2ne ⟨hB1, hB2, hB3, hB4, hB5, hB6⟩

/-- The source's `assert not active_spans` after the scan loop always holds. -/
theorem smScan_active_empty (infos : List ModuleInfo)
    (hsrv : ∀ info ∈ infos, NodupKeys info.servers) :
    (smScan infos.length 0 infos ([], [])).2 = [] := by
  by_cases h : infos = []
  · rw [h]
    rfl
  · exact (smScan_spec infos hsrv infos 0 [] [] rfl h (smInv_zero infos)).2.2

/-- C1: `compute_spans` partitions each peer's ONLINE coverage into maximal
contiguous runs.  For every sequence of per-block module infos (server dicts
having unique keys, a Python `dict` invariant), every returned span is a
maximal ONLINE run of its peer — `start < end`, the peer ONLINE at every
block of `[start, end)`, and extendable in neither direction without crossing
a block where the peer is not ONLINE or a boundary of the block range
(`maxOnlineRun`); every block where a peer is ONLINE is covered by one of
that peer's spans; and no two spans of the same peer overlap or touch
(`spanSep`). -/
theorem claim_C1 (block_infos : List ModuleInfo)
    (hsrv : ∀ info ∈ block_infos, NodupKeys info.servers) :
    (∀ s ∈ (compute_spans block_infos).1,
        maxOnlineRun block_infos s.peer_id s.start s.stop) ∧
    (∀ (p : PeerID) (i : Nat), isOnlineAt block_infos p i = true →
        ∃ s ∈ (compute_spans block_infos).1,
          s.peer_id = p ∧ s.start ≤ i ∧ i < s.stop) ∧
    List.Pairwise spanSep (compute_spans block_infos).1 := by
  have hcs1 : (compute_spans block_infos).1 =
      (smScan block_infos.length 0 block_infos ([], [])).1.insertionSort
        (fun s1 s2 => s2.stop - s2.start ≤ s1.stop - s1.start) := rfl
  have hperm0 := List.perm_insertionSort
    (fun s1 s2 : RemoteSpanInfo => s2.stop - s2.start ≤ s1.stop - s1.start)
    (smScan block_infos.length 0 block_infos ([], [])).1
  rw [← hcs1] at hperm0
  by_cases hnil : block_infos = []
  · subst hnil
    refine ⟨?_, ?_, ?_⟩
    · intro s hs
      exact absurd hs (List.not_mem_nil s)
    · intro p i hon
      exact absurd hon (by rw [show isOnlineAt [] p i = false from rfl]; simp)
    · exact List.Pairwise.nil
  · obtain ⟨hmemiff, hpair, _⟩ :=
      smScan_spec block_infos hsrv block_infos 0 [] [] rfl hnil
        (smInv_zero block_infos)
    refine ⟨?_, ?_, ?_⟩
    · intro s hs
      exact (hmemiff s).1 (hperm0.mem_iff.1 hs)
    · intro p i hon
      obtain ⟨a, b, hmax, ha, hb⟩ := exists_maxOnlineRun block_infos p i hon
      refine ⟨⟨a, b, p⟩, ?_, rfl, ha, hb⟩
      exact hperm0.mem_iff.2 ((hmemiff ⟨a, b, p⟩).2 hmax)
    · have hsym : ∀ {x y : RemoteSpanInfo}, spanSep x y → spanSep y x := by
        intro x y h heq
        rcases h heq.symm with h1 | h1
        · exact Or.inr h1
        · exact Or.inl h1
      have hpair2 : List.Pairwise spanSep
          (smScan block_infos.length 0 block_infos ([], [])).1 :=
        hpair.imp (fun h heq => Or.inl (h heq))
      exact (List.Perm.pairwise_iff hsym hperm0).2 hpair2

/-- C1 witness: the spec's worked example satisfies the dict-key hypothesis
and the partition property. -/
theorem claim_C1_witness :
    (∀ info ∈ smExample, NodupKeys info.servers) ∧
    ((∀ s ∈ (compute_spans smExample).1,
        maxOnlineRun smExample s.peer_id s.start s.stop) ∧
     (∀ (p : PeerID) (i : Nat), isOnlineAt smExample p i = true →
        ∃ s ∈ (compute_spans smExample).1,
          s.peer_id = p ∧ s.start ≤ i ∧ i < s.stop) ∧
     List.Pairwise spanSep (compute_spans smExample).1) := by
  have hsrv : ∀ info ∈ smExample, NodupKeys info.servers := by
    show ∀ info ∈ smExample, (List.map Prod.fst info.servers).Nodup
    decide
  exact ⟨hsrv, claim_C1 smExample hsrv⟩

end Petals
